import Mathlib

/-! # anchore/go-testutils: fixture cache and golden files

A shallow embedding of `golden_files.go` and `image_fixtures.go`.
(`docker_image_fixtures.go` declares the functions of `image_fixtures.go` once
more, with `test-fixtures/tar-cache` as the cache directory and without the OCI
transports; `image_fixtures.go` is the file embedded here.)

Modelling conventions

* Go strings are Lean `String`s; the library functions `strings.ReplaceAll`,
  `path.Clean`, `path.Join`, `filepath.Walk`, `sha256` and the `%x`
  verb of `fmt` are transcribed from the Go standard library.
* `*testing.T` is the record `testing.T`; only `t.Name()` is observable.
  `t.Fatal`/`t.Fatalf` and `panic` end the call: they are the `fatal` and
  `panic` outcomes of `Outcome`.  `t.Helper()` and `t.Log` have no effect on
  the modelled state.
* The filesystem `FS` is the tree below the root directory, which is also the
  working directory of the test process.  A directory entry carries its
  listing: `filepath.Walk` descends into it, and a file or directory the code
  creates is entered in the listing of its parent.  A path is resolved name by
  name from the root: empty and `.` elements are skipped, `..` removes the name
  before it (at the root it stays at the root); on the results of `path.Join`,
  which is what the code passes to package `os`, this is the resolution of the
  kernel.  A lookup fails with `ENOENT` when a name is missing from a directory
  and with `ENOTDIR` when the path goes through an entry that is not a
  directory (`os.IsNotExist` is false for the latter).  Symbolic links are not
  followed.  Permissions are not modelled (the process may read and write every
  entry, and a created entry records the `perm` argument as its mode, no umask
  applied), and closing a file never fails.
* The container engine and `stereoscope.GetImage` are parameters (`Env`): every
  statement holds for all of their answers.  An engine command does not touch
  the filesystem; what `docker image save` writes to its standard output goes to
  the file `saveImage` created for it.
-/

set_option autoImplicit false

/-! ## Go library: `strings` and `path` -/

namespace strings

/-- Loop of `strings.Replace(s, old, new, -1)` for a non-empty `old`: scan from
the left, at every position where `old` occurs emit `new` and skip `old`,
otherwise keep one character.  `fuel` bounds the number of loop rounds. -/
def replaceLoop (old new : List Char) : Nat → List Char → List Char
  | 0, s => s
  | _ + 1, [] => []
  | fuel + 1, c :: rest =>
      if old.isPrefixOf (c :: rest) then
        new ++ replaceLoop old new fuel ((c :: rest).drop old.length)
      else
        c :: replaceLoop old new fuel rest

/-- Go `strings.ReplaceAll(s, old, new)` for a non-empty `old` (the only use in
the source).  With an empty `old` Go inserts `new` around every rune; that case
is not needed and returns `s` unchanged here. -/
def ReplaceAll (s old new : String) : String :=
  if old.data = [] then s
  else String.mk (replaceLoop old.data new.data s.data.length s.data)

end strings

namespace path

/-- Lookahead of `path.Clean`: the element ends here, i.e. `r == n` or
`path[r] == '/'`. -/
def atElemEnd : List Char → Bool
  | [] => true
  | c :: _ => c == '/'

/-- Inner loop of the `..` case of `path.Clean`:
`for out.w > dotdot && out.index(out.w) != '/' { out.w-- }`, started at `w`;
returns the final `out.w`. -/
def backUp (out : List Char) (dotdot : Nat) : Nat → Nat
  | 0 => 0
  | w + 1 =>
      if w + 1 > dotdot ∧ out.getD (w + 1) '/' ≠ '/' then backUp out dotdot w
      else w + 1

/-- The `if rooted && out.w != 1 || !rooted && out.w != 0 { out.append('/') }`
of the default case of `path.Clean`. -/
def addSlash (rooted : Bool) (out : List Char) : List Char :=
  if (rooted && out.length != 1) || (!rooted && out.length != 0) then out ++ ['/']
  else out

/-- Main loop of Go `path.Clean`.  The write buffer `lazybuf` is the list `out`
(`out.w` is its length).  The flag `copying` is true while the `copy element`
loop of the default case is running.  Returns the final buffer and `dotdot`. -/
def cleanLoop (rooted : Bool) : Bool → List Char → List Char → Nat → List Char × Nat
  | _, [], out, dotdot => (out, dotdot)
  | true, c :: rest, out, dotdot =>
      if c = '/' then cleanLoop rooted false rest out dotdot
      else cleanLoop rooted true rest (out ++ [c]) dotdot
  | false, [c], out, dotdot =>
      if c = '/' then (out, dotdot)          -- empty path element
      else if c = '.' then (out, dotdot)     -- . element (r+1 == n)
      else (addSlash rooted out ++ [c], dotdot)
  | false, c :: c2 :: rest2, out, dotdot =>
      if c = '/' then
        -- empty path element
        cleanLoop rooted false (c2 :: rest2) out dotdot
      else if c = '.' ∧ c2 = '/' then
        -- . element
        cleanLoop rooted false (c2 :: rest2) out dotdot
      else if c = '.' ∧ c2 = '.' ∧ atElemEnd rest2 = true then
        -- .. element: remove to last /
        if out.length > dotdot then
          -- can backtrack
          cleanLoop rooted false rest2
            (out.take (backUp out dotdot (out.length - 1))) dotdot
        else if rooted = false then
          -- cannot backtrack, but not rooted, so append .. element
          cleanLoop rooted false rest2
            ((if out.length > 0 then out ++ ['/'] else out) ++ ['.', '.'])
            ((if out.length > 0 then out ++ ['/'] else out) ++ ['.', '.']).length
        else
          cleanLoop rooted false rest2 out dotdot
      else
        -- real path element: add slash if needed, copy element
        cleanLoop rooted true (c2 :: rest2) (addSlash rooted out ++ [c]) dotdot

/-- A proper path element: non-empty, without `/`, and neither `.` nor `..`. -/
def IsElem (e : List Char) : Prop :=
  e ≠ [] ∧ '/' ∉ e ∧ e ≠ ['.'] ∧ e ≠ ['.', '.']

/-- What `path.Clean` has written when it has read `q` and the `/` after it and
is about to copy a proper element: the part of `Clean (q ++ "/" ++ e)` before
`e`. -/
def cleanPre (q : List Char) : List Char :=
  match q with
  | [] => ['/']
  | c :: rest =>
      if c = '/' then addSlash true (cleanLoop true false rest ['/'] 1).1
      else addSlash false (cleanLoop false false (c :: rest) [] 0).1

/-- Go `path.Clean` on the characters of the path. -/
def cleanChars (p : List Char) : List Char :=
  match p with
  | [] => ['.']
  | c :: rest =>
      let out :=
        if c = '/' then (cleanLoop true false rest ['/'] 1).1
        else (cleanLoop false false (c :: rest) [] 0).1
      if out = [] then ['.'] else out

/-- Go `path.Clean`. -/
def Clean (p : String) : String := String.mk (cleanChars p.data)

/-- The buffer built by `path.Join`: elements are appended with a `/` before
every element once the buffer is non-empty; empty elements are skipped while the
buffer is empty. -/
def joinBuf : List Char → List String → List Char
  | buf, [] => buf
  | buf, e :: rest =>
      if buf.length > 0 ∨ e ≠ "" then
        joinBuf ((if buf.length > 0 then buf ++ ['/'] else buf) ++ e.data) rest
      else joinBuf buf rest

/-- Go `path.Join`. -/
def Join (elem : List String) : String :=
  if (elem.map String.length).sum = 0 then ""
  else Clean (String.mk (joinBuf [] elem))

end path

/-! ## The test handle, outcomes, the filesystem and the container engine -/

namespace testing

/-- The part of `*testing.T` the code reads: the name of the running test. -/
structure T where
  Name : String
  deriving DecidableEq, Repr

end testing

/-- A filesystem entry as `Lstat` sees it.  A directory carries its listing, so
that `filepath.Walk` can descend into it.  `mode` holds the permission bits. -/
inductive Node where
  | file (mode : Nat) (content : List UInt8)
  | dir (mode : Nat) (entries : List (String × Node))
  | symlink (target : String)
  | special (mode : Nat)
  deriving Repr

/-- Go `info.Mode().IsRegular()`. -/
def Node.IsRegular : Node → Bool
  | .file _ _ => true
  | _ => false

/-- Go `info.IsDir()`. -/
def Node.IsDir : Node → Bool
  | .dir _ _ => true
  | _ => false

/-- Error values of package `os` that the modelled calls can return. -/
inductive os.Error where
  | ENOENT
  | EEXIST
  | EISDIR
  | ENOTDIR
  | EINVAL
  deriving DecidableEq, Repr

/-- Reading an open entry to its end (`ioutil.ReadAll(f)`, the reads of
`io.Copy`): the bytes of a regular file; a directory cannot be read, and reading
a symbolic link or a special file is outside the model and an error. -/
def Node.read : Node → Except os.Error (List UInt8)
  | .file _ content => .ok content
  | .dir _ _ => .error .EISDIR
  | .symlink _ => .error .EINVAL
  | .special _ => .error .EINVAL

namespace os

/-- The elements of a path: the texts between its `/`. -/
def elements : List Char → List (List Char)
  | [] => [[]]
  | c :: rest =>
      if c = '/' then [] :: elements rest
      else
        match elements rest with
        | [] => [[c]]
        | e :: more => (c :: e) :: more

/-- One step of the resolution of a path, `cur` being the names from the root to
the directory reached so far: an empty element and `.` stay there, `..` goes to
the parent (the root is its own parent), a name goes to the entry of that name. -/
def step (cur : List String) (e : List Char) : List String :=
  if e = [] ∨ e = ['.'] then cur
  else if e = ['.', '.'] then cur.dropLast
  else cur ++ [String.mk e]

/-- The place a path names: the names that lead to it from the root directory,
which is also the working directory. -/
def locate (p : String) : List String := (elements p.data).foldl step []

end os

mutual
/-- The entry reached from a node by following names, as the kernel looks it
up: `ENOENT` when a name is missing from a directory, `ENOTDIR` when a name is
looked up in an entry that is not a directory. -/
def Node.find : Node → List String → Except os.Error Node
  | .file m c, [] => .ok (.file m c)
  | .symlink tgt, [] => .ok (.symlink tgt)
  | .special m, [] => .ok (.special m)
  | .dir m entries, [] => .ok (.dir m entries)
  | .dir _ entries, name :: rest => findIn entries name rest
  | .file _ _, _ :: _ => .error .ENOTDIR
  | .symlink _, _ :: _ => .error .ENOTDIR
  | .special _, _ :: _ => .error .ENOTDIR
/-- The entry reached from the entry called `name` of a listing. -/
def findIn : List (String × Node) → String → List String → Except os.Error Node
  | [], _, _ => .error .ENOENT
  | (n, child) :: more, name, rest =>
      if n = name then child.find rest else findIn more name rest
end

mutual
/-- The tree with `new` entered at the place the names lead to: it replaces the
entry there, or is added to the listing of the parent directory when no entry
has the name.  Nothing changes when the parent is missing or not a directory. -/
def Node.put : Node → List String → Node → Node
  | _, [], new => new
  | .dir m entries, name :: rest, new => .dir m (putIn entries name rest new)
  | .file m c, _ :: _, _ => .file m c
  | .symlink tgt, _ :: _, _ => .symlink tgt
  | .special m, _ :: _, _ => .special m
/-- The listing with `new` entered below (or as) its entry called `name`. -/
def putIn : List (String × Node) → String → List String → Node → List (String × Node)
  | [], name, [], new => [(name, new)]
  | [], _, _ :: _, _ => []
  | (n, child) :: more, name, rest, new =>
      if n = name then (n, child.put rest new) :: more
      else (n, child) :: putIn more name rest new
end

/-- The filesystem: the tree of entries below the root directory. -/
structure FS where
  root : Node

/-- The entry found at a path, if there is one. -/
def FS.get (fs : FS) (p : String) : Option Node :=
  (fs.root.find (os.locate p)).toOption

/-- A filesystem is applied to a path to get the entry there: `fs p`. -/
instance FS.instCoeFun : CoeFun FS (fun _ => String → Option Node) := ⟨FS.get⟩

/-- The filesystem with `n` entered at `p` (see `Node.put`). -/
def FS.set (fs : FS) (p : String) (n : Node) : FS :=
  ⟨fs.root.put (os.locate p) n⟩

/-- Commands the code runs on the container engine CLI. -/
inductive Cmd where
  | inspect (image : String)
  | build (contextDir : String) (tag latest : String)
  | save (image : String)
  deriving DecidableEq, Repr

/-- Selects `docker build`. -/
def Cmd.isBuild : Cmd → Bool
  | .build _ _ _ => true
  | _ => false

/-- Selects `docker image save`. -/
def Cmd.isSave : Cmd → Bool
  | .save _ => true
  | _ => false

/-- What `cmd.Run()` reports: whether it returned a nil error, and the bytes the
command wrote to its standard output. -/
structure CmdResult where
  success : Bool
  stdout : List UInt8
  deriving DecidableEq, Repr

/-- An image handle of the stereoscope library. -/
structure image.Image where
  id : Nat
  deriving DecidableEq, Repr

/-- The external collaborators, taken as parameters: the container engine (its
answer to a command may depend on all commands run before), and
`stereoscope.GetImage`. -/
structure Env where
  docker : List Cmd → Cmd → CmdResult
  GetImage : FS → String → Option image.Image

/-- The state the code acts on: the filesystem and the engine commands run so
far (oldest first). -/
structure World where
  fs : FS
  cmds : List Cmd

/-- How a call ends: it returns, or the test is aborted by `t.Fatal`/`t.Fatalf`,
or the code panics. -/
inductive Outcome (α : Type) where
  | ok (val : α)
  | fatal (msg : String)
  | panic (err : os.Error)
  deriving DecidableEq, Repr

namespace os

/-- Go `os.IsNotExist(err)`. -/
def IsNotExist : Option Error → Bool
  | some .ENOENT => true
  | _ => false

/-- Go `os.Stat` / `os.Lstat`: the entry at the path, or the error of the
lookup. -/
def Stat (fs : FS) (name : String) : Except Error Node :=
  fs.root.find (locate name)

/-- The error value of a call, `nil` being `none`. -/
def errOf {α : Type} : Except Error α → Option Error
  | .ok _ => none
  | .error e => some e

/-- Creating an entry needs its parent directory: `none` when the parent of the
place `name` leads to is a directory, else the error of looking it up. -/
def parentErr (fs : FS) (name : String) : Option Error :=
  match fs.root.find (locate name).dropLast with
  | .ok (.dir _ _) => none
  | .ok _ => some .ENOTDIR
  | .error e => some e

/-- Go `os.Mkdir(name, perm)`. -/
def Mkdir (fs : FS) (name : String) (perm : Nat) : Except Error FS :=
  match fs name with
  | some _ => .error .EEXIST
  | none =>
      match parentErr fs name with
      | some e => .error e
      | none => .ok (fs.set name (.dir perm []))

/-- Go `os.OpenFile(name, O_WRONLY|O_CREATE|O_TRUNC, perm)`: an existing regular
file is truncated and keeps its mode, a missing one is created with `perm`.
Symbolic links and special files are not followed by the model: opening one for
writing is an error. -/
def openTrunc (fs : FS) (name : String) (perm : Nat) : Except Error FS :=
  match fs name with
  | some (.file m _) => .ok (fs.set name (.file m []))
  | some (.dir _ _) => .error .EISDIR
  | some _ => .error .EINVAL
  | none =>
      match parentErr fs name with
      | some e => .error e
      | none => .ok (fs.set name (.file perm []))

/-- Go `os.Create(name)`, i.e. `OpenFile(name, O_RDWR|O_CREATE|O_TRUNC, 0666)`. -/
def Create (fs : FS) (name : String) : Except Error FS :=
  openTrunc fs name 0o666

/-- Writing `data` to the file opened (and truncated) at `name`. -/
def write (fs : FS) (name : String) (data : List UInt8) : FS :=
  match fs name with
  | some (.file m old) => fs.set name (.file m (old ++ data))
  | _ => fs

/-- Go `ioutil.WriteFile(name, data, perm)`. -/
def WriteFile (fs : FS) (name : String) (data : List UInt8) (perm : Nat) : Except Error FS :=
  match openTrunc fs name perm with
  | .error e => .error e
  | .ok fs1 => .ok (write fs1 name data)

/-- Go `os.Open(name)`: the handle is the path; opening a missing path fails with
the error of the lookup. -/
def Open (fs : FS) (name : String) : Except Error String :=
  match Stat fs name with
  | .ok _ => .ok name
  | .error e => .error e

/-- Reading the file opened at `f` to its end. -/
def readAll (fs : FS) (f : String) : Except Error (List UInt8) :=
  match fs f with
  | some n => n.read
  | none => .error .ENOENT

end os

/-! ## Go library: `filepath.Walk` -/

namespace filepath

/-- Go `readDirNames`: the names in the directory, sorted.  The listing is read
as a finite map, a name occurs once. -/
def readDirNames (entries : List (String × Node)) : List String :=
  ((entries.map Prod.fst).dedup).insertionSort (fun a b => a.data ≤ b.data)

/-- The `for _, name := range names` loop of `walk`, `visit` being its body. -/
def forNames {σ : Type} (visit : String → σ → Except os.Error σ) :
    List String → σ → Except os.Error σ
  | [], s => .ok s
  | name :: rest, s =>
      match visit name s with
      | .error e => .error e
      | .ok s1 => forNames visit rest s1

mutual
/-- Go `filepath.walk(path, info, walkFn)`; `info` is the node, `s` the state the
callback closes over.  The callbacks of this package never return `SkipDir`. -/
def walk {σ : Type} (walkFn : String → Option Node → Option os.Error → σ → Except os.Error σ) :
    String → Node → σ → Except os.Error σ
  | p, .dir m entries, s =>
      match walkFn p (some (.dir m entries)) none s with
      | .error e => .error e
      | .ok s1 =>
          forNames (fun name s2 => walkChild walkFn p entries name s2) (readDirNames entries) s1
  | p, .file m c, s => walkFn p (some (.file m c)) none s
  | p, .symlink tgt, s => walkFn p (some (.symlink tgt)) none s
  | p, .special m, s => walkFn p (some (.special m)) none s
/-- Body of the loop of `walk` for one name: `lstat` of `Join(path, name)` finds
the entry of that name in the listing, then `walk` descends; a failed `lstat` is
handed to the callback. -/
def walkChild {σ : Type} (walkFn : String → Option Node → Option os.Error → σ → Except os.Error σ) :
    String → List (String × Node) → String → σ → Except os.Error σ
  | p, [], name, s => walkFn (path.Join [p, name]) none (some .ENOENT) s
  | p, (n, child) :: rest, name, s =>
      if n = name then walk walkFn (path.Join [p, name]) child s
      else walkChild walkFn p rest name s
end

/-- Go `filepath.Walk(root, fn)`. -/
def Walk {σ : Type} (fs : FS) (root : String)
    (fn : String → Option Node → Option os.Error → σ → Except os.Error σ) (s : σ) :
    Except os.Error σ :=
  match os.Stat fs root with
  | .error e => fn root none (some e) s
  | .ok info => walk fn root info s

end filepath

/-! ## Go library: `crypto/sha256` -/

namespace sha256

/-- The round constants of SHA-256 (FIPS 180-4, section 4.2.2), in decimal: the
first 32 bits of the fractional parts of the cube roots of the first 64 primes. -/
def K : List Nat :=
  [
   1116352408, 1899447441, 3049323471, 3921009573, 961987163, 1508970993,
   2453635748, 2870763221, 3624381080, 310598401, 607225278, 1426881987,
   1925078388, 2162078206, 2614888103, 3248222580, 3835390401, 4022224774,
   264347078, 604807628, 770255983, 1249150122, 1555081692, 1996064986,
   2554220882, 2821834349, 2952996808, 3210313671, 3336571891, 3584528711,
   113926993, 338241895, 666307205, 773529912, 1294757372, 1396182291,
   1695183700, 1986661051, 2177026350, 2456956037, 2730485921, 2820302411,
   3259730800, 3345764771, 3516065817, 3600352804, 4094571909, 275423344,
   430227734, 506948616, 659060556, 883997877, 958139571, 1322822218,
   1537002063, 1747873779, 1955562222, 2024104815, 2227730452, 2361852424,
   2428436474, 2756734187, 3204031479, 3329325298
  ]

/-- The initial hash value of SHA-256 (FIPS 180-4, section 5.3.3), in decimal: the
first 32 bits of the fractional parts of the square roots of the first 8 primes. -/
def H0 : List Nat :=
  [1779033703, 3144134277, 1013904242, 2773480762,
   1359893119, 2600822924, 528734635, 1541459225]

/-- Rotation to the right of a 32-bit word. -/
def rotr (n x : Nat) : Nat := ((x >>> n) ||| (x <<< (32 - n))) % 2 ^ 32

/-- Padding: a `0x80` byte, zeros, and the bit length as 8 big-endian bytes, up to
a multiple of 64 bytes. -/
def pad (msg : List Nat) : List Nat :=
  msg ++ [0x80] ++ List.replicate ((64 - (msg.length + 9) % 64) % 64) 0
    ++ (List.range 8).map (fun i => (msg.length * 8) >>> (8 * (7 - i)) % 256)

/-- Big-endian 32-bit words of a byte string whose length is a multiple of 4. -/
def toWords : Nat → List Nat → List Nat
  | 0, _ => []
  | _ + 1, [] => []
  | n + 1, bs =>
      (bs.getD 0 0 * 2 ^ 24 + bs.getD 1 0 * 2 ^ 16 + bs.getD 2 0 * 2 ^ 8 + bs.getD 3 0)
        :: toWords n (bs.drop 4)

/-- The message schedule: `k` more words after `w`. -/
def schedule : Nat → List Nat → List Nat
  | 0, w => w
  | k + 1, w =>
      let i := w.length
      let w15 := w.getD (i - 15) 0
      let w2 := w.getD (i - 2) 0
      let s0 := rotr 7 w15 ^^^ rotr 18 w15 ^^^ (w15 >>> 3)
      let s1 := rotr 17 w2 ^^^ rotr 19 w2 ^^^ (w2 >>> 10)
      schedule k (w ++ [(w.getD (i - 16) 0 + s0 + w.getD (i - 7) 0 + s1) % 2 ^ 32])

/-- The working variables `a` to `h`. -/
structure Vars where
  a : Nat
  b : Nat
  c : Nat
  d : Nat
  e : Nat
  f : Nat
  g : Nat
  h : Nat

/-- One round of the compression function, with round constant `k` and schedule
word `w`. -/
def round (v : Vars) (k w : Nat) : Vars :=
  let s1 := rotr 6 v.e ^^^ rotr 11 v.e ^^^ rotr 25 v.e
  let ch := (v.e &&& v.f) ^^^ ((2 ^ 32 - 1 - v.e) &&& v.g)
  let t1 := (v.h + s1 + ch + k + w) % 2 ^ 32
  let s0 := rotr 2 v.a ^^^ rotr 13 v.a ^^^ rotr 22 v.a
  let maj := (v.a &&& v.b) ^^^ (v.a &&& v.c) ^^^ (v.b &&& v.c)
  let t2 := (s0 + maj) % 2 ^ 32
  ⟨(t1 + t2) % 2 ^ 32, v.a, v.b, v.c, (v.d + t1) % 2 ^ 32, v.e, v.f, v.g⟩

/-- The 64 rounds over the constants and the schedule. -/
def rounds : Vars → List Nat → List Nat → Vars
  | v, k :: ks, w :: ws => rounds (round v k w) ks ws
  | v, _, _ => v

/-- The compression of one 64-byte block into the hash value. -/
def compress (hash : List Nat) (block : List Nat) : List Nat :=
  let v0 : Vars := ⟨hash.getD 0 0, hash.getD 1 0, hash.getD 2 0, hash.getD 3 0,
    hash.getD 4 0, hash.getD 5 0, hash.getD 6 0, hash.getD 7 0⟩
  let v := rounds v0 K (schedule 48 (toWords 16 block))
  [(v0.a + v.a) % 2 ^ 32, (v0.b + v.b) % 2 ^ 32, (v0.c + v.c) % 2 ^ 32, (v0.d + v.d) % 2 ^ 32,
   (v0.e + v.e) % 2 ^ 32, (v0.f + v.f) % 2 ^ 32, (v0.g + v.g) % 2 ^ 32, (v0.h + v.h) % 2 ^ 32]

/-- All blocks in turn; `n` is the number of blocks. -/
def blocks : Nat → List Nat → List Nat → List Nat
  | 0, hash, _ => hash
  | n + 1, hash, bs => blocks n (compress hash (bs.take 64)) (bs.drop 64)

/-- Go `sha256.Sum256`: SHA-256 of a byte string, the 32 bytes of the digest. -/
def Sum256 (msg : List UInt8) : List UInt8 :=
  let padded := pad (msg.map UInt8.toNat)
  (blocks (padded.length / 64) H0 padded).flatMap
    (fun w => [UInt8.ofNat (w >>> 24), UInt8.ofNat (w >>> 16 % 256),
      UInt8.ofNat (w >>> 8 % 256), UInt8.ofNat (w % 256)])

/-- Go `sha256.New()`: a running hash is the input written to it so far;
`Write` appends, and `Sum(nil)` is `Sum256` of what was written. -/
def New : List UInt8 := []

end sha256

namespace fmt

/-- One lowercase hexadecimal digit. -/
def hexDigit (n : Nat) : Char :=
  if n < 10 then Char.ofNat (48 + n) else Char.ofNat (87 + n)

/-- Go `fmt.Sprintf("%x", b)` for a byte slice: two lowercase digits per byte. -/
def hex (b : List UInt8) : String :=
  String.mk (b.flatMap (fun x => [hexDigit (x.toNat / 16), hexDigit (x.toNat % 16)]))

end fmt

/-! ## `image_fixtures.go` -/

def testFixturesDir : String := "test-fixtures"
def cacheDir : String := path.Join [testFixturesDir, "cache"]
def imagePrefix : String := "anchore-fixture"

/-- `fileOrDirExists` of `image_fixtures.go`. -/
def fileOrDirExists (_t : testing.T) (filename : String) (w : World) : Bool :=
  !(os.IsNotExist (os.errOf (os.Stat w.fs filename)))

/-- The callback `dirHash` passes to `filepath.Walk`; the state is the input
written to the hasher so far.  `os.Open(path)` opens the entry the walk is at,
and `io.Copy(hasher, f)` writes its bytes to the hasher. -/
def dirHashWalkFn (_p : String) (info : Option Node) (err : Option os.Error)
    (hasher : List UInt8) : Except os.Error (List UInt8) :=
  match err with
  | some e => .error e
  | none =>
      match info with
      | none => .ok hasher
      | some node =>
          if !node.IsRegular then .ok hasher
          else
            match node.read with
            | .error e => .error e
            | .ok bytes => .ok (hasher ++ bytes)

/-- `dirHash` of `image_fixtures.go`: the returned string and error. -/
def dirHash (_t : testing.T) (root : String) (w : World) : String × Option os.Error :=
  match filepath.Walk w.fs root dirHashWalkFn sha256.New with
  | .error e => ("", some e)
  | .ok hasher => (fmt.hex (sha256.Sum256 hasher), none)

/-- `fixtureVersion` of `image_fixtures.go`. -/
def fixtureVersion (t : testing.T) (name : String) (w : World) : Outcome String :=
  let contextPath := path.Join [testFixturesDir, name]
  match dirHash t contextPath w with
  | (_, some err) => .panic err
  | (dockerfileHash, none) => .ok dockerfileHash

/-- `getFixtureImageInfo` of `image_fixtures.go`. -/
def getFixtureImageInfo (t : testing.T) (name : String) (w : World) :
    Outcome (String × String) :=
  match fixtureVersion t name w with
  | .panic e => .panic e
  | .fatal m => .fatal m
  | .ok version => .ok (imagePrefix ++ "-" ++ name, version)

/-- Running a command on the engine: it is recorded, the engine answers. -/
def runCmd (env : Env) (c : Cmd) (w : World) : CmdResult × World :=
  (env.docker w.cmds c, { w with cmds := w.cmds ++ [c] })

/-- `hasImage` of `image_fixtures.go`. -/
def hasImage (env : Env) (_t : testing.T) (imageName : String) (w : World) : Bool × World :=
  let r := runCmd env (.inspect imageName) w
  (r.1.success, r.2)

/-- `buildImage` of `image_fixtures.go`; returns whether `cmd.Run()` gave no
error. -/
def buildImage (env : Env) (_t : testing.T) (contextDir name tag : String) (w : World) :
    Bool × World :=
  let r := runCmd env (.build contextDir (name ++ ":" ++ tag) (name ++ ":latest")) w
  (r.1.success, r.2)

/-- `saveImage` of `image_fixtures.go`: the file is created first, then the
engine writes the archive to it; the outcome carries whether `cmd.Run()` gave no
error. -/
def saveImage (env : Env) (_t : testing.T) (image tarPath : String) (w : World) :
    Outcome Bool × World :=
  match os.Create w.fs tarPath with
  | .error _ => (.fatal "unable to create file for docker image tar", w)
  | .ok fs1 =>
      let r := runCmd env (.save image) { w with fs := fs1 }
      (.ok r.1.success, { r.2 with fs := os.write r.2.fs tarPath r.1.stdout })

/-- `getFixtureImageTarPath` of `image_fixtures.go`. -/
def getFixtureImageTarPath (env : Env) (t : testing.T)
    (fixtureName tarStoreDir tarFileName : String) (w : World) : Outcome String × World :=
  match getFixtureImageInfo t fixtureName w with
  | .panic e => (.panic e, w)
  | .fatal m => (.fatal m, w)
  | .ok (imageName, imageVersion) =>
      let fullImageName := imageName ++ ":" ++ imageVersion
      let tarPath := path.Join [tarStoreDir, tarFileName]
      -- create the cache dir if it does not already exist...
      let made : Except os.Error World :=
        if !fileOrDirExists t cacheDir w then
          match os.Mkdir w.fs cacheDir 0o755 with
          | .error e => .error e
          | .ok fs1 => .ok { w with fs := fs1 }
        else .ok w
      match made with
      | .error _ => (.fatal "could not create tar cache dir", w)
      | .ok w1 =>
          -- if the image tar does not exist, make it
          if !fileOrDirExists t tarPath w1 then
            let has := hasImage env t fullImageName w1
            let built : Bool × World :=
              if !has.1 then
                buildImage env t (path.Join [testFixturesDir, fixtureName]) imageName
                  imageVersion has.2
              else (true, has.2)
            if !built.1 then (.fatal "could not build fixture image", built.2)
            else
              match saveImage env t fullImageName tarPath built.2 with
              | (.ok true, w3) => (.ok tarPath, w3)
              | (.ok false, w3) => (.fatal "could not save fixture image", w3)
              | (.fatal m, w3) => (.fatal m, w3)
              | (.panic e, w3) => (.panic e, w3)
          else (.ok tarPath, w1)

/-- `GetFixtureImageTarPath` of `image_fixtures.go`. -/
def GetFixtureImageTarPath (env : Env) (t : testing.T) (name : String) (w : World) :
    Outcome String × World :=
  match getFixtureImageInfo t name w with
  | .panic e => (.panic e, w)
  | .fatal m => (.fatal m, w)
  | .ok (imageName, imageVersion) =>
      let tarFileName := imageName ++ "-" ++ imageVersion ++ ".tar"
      getFixtureImageTarPath env t name cacheDir tarFileName w

/-- `getFixtureImageFromTar` of `image_fixtures.go`. -/
def getFixtureImageFromTar (env : Env) (_t : testing.T) (tarPath : String) (w : World) :
    Outcome image.Image × World :=
  let request := "docker-archive://" ++ tarPath
  match env.GetImage w.fs request with
  | none => (.fatal "could not get tar image", w)
  | some i => (.ok i, w)

/-! ## `golden_files.go` -/

def goldenFileDirName : String := "snapshot"
def goldenFileExt : String := ".golden"
def goldenFileDirPath : String := path.Join [testFixturesDir, goldenFileDirName]

/-- `GetGoldenFixtureImage` of `golden_files.go`. -/
def GetGoldenFixtureImage (env : Env) (t : testing.T) (name : String) (w : World) :
    Outcome image.Image × World :=
  match getFixtureImageInfo t name w with
  | .panic e => (.panic e, w)
  | .fatal m => (.fatal m, w)
  | .ok (imageName, _) =>
      let tarFileName := imageName ++ goldenFileExt
      match getFixtureImageTarPath env t name goldenFileDirPath tarFileName w with
      | (.ok tarPath, w1) => getFixtureImageFromTar env t tarPath w1
      | (.fatal m, w1) => (.fatal m, w1)
      | (.panic e, w1) => (.panic e, w1)

/-- `GetGoldenFilePath` of `golden_files.go`. -/
def GetGoldenFilePath (t : testing.T) : String :=
  let filename := strings.ReplaceAll t.Name "/" "_"
  path.Join [goldenFileDirPath, filename ++ goldenFileExt]

/-- `UpdateGoldenFileContents` of `golden_files.go`. -/
def UpdateGoldenFileContents (t : testing.T) (contents : List UInt8) (w : World) :
    Outcome Unit × World :=
  let goldenFilePath := GetGoldenFilePath t
  match os.WriteFile w.fs goldenFilePath contents 0o600 with
  | .error _ => (.fatal "could not update golden file", w)
  | .ok fs1 => (.ok (), { w with fs := fs1 })

/-- `GetGoldenFileContents` of `golden_files.go`. -/
def GetGoldenFileContents (t : testing.T) (w : World) : Outcome (List UInt8) × World :=
  let goldenPath := GetGoldenFilePath t
  if !fileOrDirExists t goldenPath w then (.fatal "golden file does not exist", w)
  else
    match os.Open w.fs goldenPath with
    | .error _ => (.fatal "could not open file", w)
    | .ok f =>
        match os.readAll w.fs f with
        | .error _ => (.fatal "could not read file", w)
        | .ok bytes => (.ok bytes, w)

/-! ## Vocabulary of the statements -/

/-- The build context directory of a fixture. -/
def contextPath (name : String) : String := path.Join [testFixturesDir, name]

/-- The cache path of a fixture at a version:
`test-fixtures/cache/anchore-fixture-<name>-<version>.tar`. -/
def cachePath (name version : String) : String :=
  path.Join [cacheDir, imagePrefix ++ "-" ++ name ++ "-" ++ version ++ ".tar"]

/-- The golden image path of a fixture:
`test-fixtures/snapshot/anchore-fixture-<name>.golden`. -/
def goldenImagePath (name : String) : String :=
  path.Join [goldenFileDirPath, imagePrefix ++ "-" ++ name ++ goldenFileExt]

/-- The engine reference of a fixture at a version: `anchore-fixture-<name>:<version>`. -/
def fullImageName (name version : String) : String :=
  imagePrefix ++ "-" ++ name ++ ":" ++ version

/-- Number of `docker build` runs recorded. -/
def World.builds (w : World) : Nat := (w.cmds.filter Cmd.isBuild).length

/-- Number of `docker image save` runs recorded. -/
def World.saves (w : World) : Nat := (w.cmds.filter Cmd.isSave).length

/-- The call returned (it neither aborted the test nor panicked). -/
def Outcome.isOk {α : Type} : Outcome α → Bool
  | .ok _ => true
  | _ => false

/-! ## The regular files of a build context -/

mutual
/-- The regular files below a node in the order of the walk: for each, the names
leading to it from the node, and its bytes.  A directory is read as
`readDirNames` reads it; files, symbolic links and special files have no
children. -/
def Node.regularFiles : Node → List (List String × List UInt8)
  | .file _ content => [([], content)]
  | .dir _ entries =>
      (filepath.readDirNames entries).flatMap
        (fun name => (childFiles entries name).map (fun f => (name :: f.1, f.2)))
  | .symlink _ => []
  | .special _ => []
/-- The regular files below the entry called `name` of a listing. -/
def childFiles : List (String × Node) → String → List (List String × List UInt8)
  | [], _ => []
  | (n, child) :: rest, name =>
      if n = name then child.regularFiles else childFiles rest name
end

mutual
/-- The entry reached from a node by following the names of a path. -/
def Node.resolve : Node → List String → Option Node
  | .file m c, [] => some (.file m c)
  | .symlink tgt, [] => some (.symlink tgt)
  | .special m, [] => some (.special m)
  | .dir m entries, [] => some (.dir m entries)
  | .dir _ entries, name :: rest => resolveIn entries name rest
  | .file _ _, _ :: _ => none
  | .symlink _, _ :: _ => none
  | .special _, _ :: _ => none
/-- The entry reached from the entry called `name` of a listing. -/
def resolveIn : List (String × Node) → String → List String → Option Node
  | [], _, _ => none
  | (n, child) :: more, name, rest =>
      if n = name then child.resolve rest else resolveIn more name rest
end

mutual
/-- The tree after the byte at index `i` of the regular file at path `p` is
replaced by `x`; all other entries, and all names and modes, stay. -/
def Node.setByte : Node → List String → Nat → UInt8 → Node
  | .file m c, [], i, x => .file m (c.set i x)
  | .file m c, _ :: _, _, _ => .file m c
  | .dir m entries, [], _, _ => .dir m entries
  | .dir m entries, name :: rest, i, x => .dir m (setByteIn entries name rest i x)
  | .symlink tgt, _, _, _ => .symlink tgt
  | .special m, _, _, _ => .special m
/-- The listing after that change below its entry called `name`. -/
def setByteIn : List (String × Node) → String → List String → Nat → UInt8 →
    List (String × Node)
  | [], _, _, _, _ => []
  | (n, child) :: more, name, rest, i, x =>
      if n = name then (n, child.setByte rest i x) :: more
      else (n, child) :: setByteIn more name rest i x
end

/-- The concatenation of the contents of the regular files, in walk order. -/
def Node.stream (n : Node) : List UInt8 :=
  (n.regularFiles.map Prod.snd).flatten

/-- The change made to the listing of regular files by `setByte`. -/
def pokeFile (p : List String) (i : Nat) (x : UInt8) (f : List String × List UInt8) :
    List String × List UInt8 :=
  if f.1 = p then (f.1, f.2.set i x) else f

/-- The order of the walk on paths: lexicographic in the names, names compared
as `readDirNames` sorts them. -/
def pathLt (a b : List String) : Prop :=
  List.Lex (fun x y : String => x.data < y.data) a b

/-! ## The branches of `getFixtureImageTarPath` -/

/-- What `fileOrDirExists` answers on a filesystem: true when an entry is at the
path, and also when the lookup fails with an error other than "does not exist"
(the path goes through an entry that is not a directory). -/
def FS.found (fs : FS) (p : String) : Bool :=
  !(os.IsNotExist (os.errOf (os.Stat fs p)))

/-- The filesystem after the block that creates the cache directory when
`fileOrDirExists` does not find it (and `os.Mkdir` succeeds). -/
def cacheDirEnsured (fs : FS) : FS :=
  if fs.found cacheDir = true then fs else fs.set cacheDir (.dir 0o755 [])

/-- The commands run by the `hasImage` / `buildImage` block when it does not
abort: `inspect` alone when the engine has the image, else `inspect` and a
successful `build`. -/
inductive BuiltCmds (env : Env) (ctx img v : String) (cmds : List Cmd) : List Cmd → Prop where
  | has (h : (env.docker cmds (.inspect (img ++ ":" ++ v))).success = true) :
      BuiltCmds env ctx img v cmds (cmds ++ [.inspect (img ++ ":" ++ v)])
  | built (h : (env.docker cmds (.inspect (img ++ ":" ++ v))).success = false)
      (hb : (env.docker (cmds ++ [.inspect (img ++ ":" ++ v)])
        (.build ctx (img ++ ":" ++ v) (img ++ ":latest"))).success = true) :
      BuiltCmds env ctx img v cmds
        (cmds ++ [.inspect (img ++ ":" ++ v), .build ctx (img ++ ":" ++ v) (img ++ ":latest")])

/-- The runs of `getFixtureImageTarPath` for image `img` at version `v` and tar
path `p`, by the branch taken: the result and the final state. -/
inductive TarPathRun (env : Env) (ctx img v p : String) (w : World) :
    Outcome String × World → Prop where
  | mkdirFailed (hc : w.fs.found cacheDir = false) (hd : os.parentErr w.fs cacheDir ≠ none) :
      TarPathRun env ctx img v p w (.fatal "could not create tar cache dir", w)
  | hit (hc : (cacheDirEnsured w.fs).found cacheDir = true)
      (hp : (cacheDirEnsured w.fs).found p = true) :
      TarPathRun env ctx img v p w (.ok p, ⟨cacheDirEnsured w.fs, w.cmds⟩)
  | buildFailed (hc : (cacheDirEnsured w.fs).found cacheDir = true)
      (hp : (cacheDirEnsured w.fs).found p = false)
      (h : (env.docker w.cmds (.inspect (img ++ ":" ++ v))).success = false)
      (hb : (env.docker (w.cmds ++ [.inspect (img ++ ":" ++ v)])
        (.build ctx (img ++ ":" ++ v) (img ++ ":latest"))).success = false) :
      TarPathRun env ctx img v p w (.fatal "could not build fixture image",
        ⟨cacheDirEnsured w.fs,
          w.cmds ++ [.inspect (img ++ ":" ++ v), .build ctx (img ++ ":" ++ v) (img ++ ":latest")]⟩)
  | createFailed (cmdsB : List Cmd) (hc : (cacheDirEnsured w.fs).found cacheDir = true)
      (hp : (cacheDirEnsured w.fs).found p = false) (hb : BuiltCmds env ctx img v w.cmds cmdsB)
      (hd : os.parentErr (cacheDirEnsured w.fs) p ≠ none) :
      TarPathRun env ctx img v p w (.fatal "unable to create file for docker image tar",
        ⟨cacheDirEnsured w.fs, cmdsB⟩)
  | saveFailed (cmdsB : List Cmd) (hc : (cacheDirEnsured w.fs).found cacheDir = true)
      (hp : (cacheDirEnsured w.fs).found p = false) (hb : BuiltCmds env ctx img v w.cmds cmdsB)
      (hd : os.parentErr (cacheDirEnsured w.fs) p = none)
      (hs : (env.docker cmdsB (.save (img ++ ":" ++ v))).success = false) :
      TarPathRun env ctx img v p w (.fatal "could not save fixture image",
        ⟨(cacheDirEnsured w.fs).set p
            (.file 0o666 (env.docker cmdsB (.save (img ++ ":" ++ v))).stdout),
          cmdsB ++ [.save (img ++ ":" ++ v)]⟩)
  | saved (cmdsB : List Cmd) (hc : (cacheDirEnsured w.fs).found cacheDir = true)
      (hp : (cacheDirEnsured w.fs).found p = false) (hb : BuiltCmds env ctx img v w.cmds cmdsB)
      (hd : os.parentErr (cacheDirEnsured w.fs) p = none)
      (hs : (env.docker cmdsB (.save (img ++ ":" ++ v))).success = true) :
      TarPathRun env ctx img v p w (.ok p,
        ⟨(cacheDirEnsured w.fs).set p
            (.file 0o666 (env.docker cmdsB (.save (img ++ ":" ++ v))).stdout),
          cmdsB ++ [.save (img ++ ":" ++ v)]⟩)

/-! ## Concrete states used in the examples -/

/-- A filesystem holding only the directories of the fixtures layout. -/
def fsLayout : FS :=
  ⟨.dir 0o755 [("test-fixtures", .dir 0o755 [("snapshot", .dir 0o755 []),
    ("cache", .dir 0o755 [])])]⟩

/-- A build context holding the single file `Dockerfile` with content
`FROM scratch`. -/
def scratchContext : Node :=
  .dir 0o755 [("Dockerfile", .file 0o644 [70, 82, 79, 77, 32, 115, 99, 114, 97, 116, 99, 104])]

/-- The fixtures layout with the context `scratch-fixture`, an empty cache and
an empty snapshot directory. -/
def fsScratch : FS :=
  ⟨.dir 0o755 [("test-fixtures", .dir 0o755 [("scratch-fixture", scratchContext),
    ("snapshot", .dir 0o755 []), ("cache", .dir 0o755 [])])]⟩

/-- An engine that has no image and whose `build` fails. -/
def envBuildFails : Env where
  docker := fun _ c =>
    match c with
    | .inspect _ => ⟨false, []⟩
    | .build _ _ _ => ⟨false, []⟩
    | .save _ => ⟨true, [1, 2, 3]⟩
  GetImage := fun _ _ => some ⟨0⟩

/-- An engine that has every image and whose `save` fails without output. -/
def envSaveFails : Env where
  docker := fun _ c =>
    match c with
    | .inspect _ => ⟨true, []⟩
    | .build _ _ _ => ⟨true, []⟩
    | .save _ => ⟨false, []⟩
  GetImage := fun _ _ => some ⟨0⟩

/-- An engine that has no image, builds successfully and saves the bytes
`1 2 3`. -/
def envWorks : Env where
  docker := fun _ c =>
    match c with
    | .inspect _ => ⟨false, []⟩
    | .build _ _ _ => ⟨true, []⟩
    | .save _ => ⟨true, [1, 2, 3]⟩
  GetImage := fun _ _ => some ⟨0⟩

/-- The context `scratchContext` after an edit: the same bytes, now split over
the two files `Dockerfile` (`FROM `) and `base` (`scratch`). -/
def splitContext : Node :=
  .dir 0o755 [("Dockerfile", .file 0o644 [70, 82, 79, 77, 32]),
    ("base", .file 0o644 [115, 99, 114, 97, 116, 99, 104])]

/-- The state after a first `GetFixtureImageTarPath` call for `scratch-fixture`
with the engine `envWorks`, the `Dockerfile` of the context then cut down to
`FROM `. -/
def worldEdited : World :=
  ⟨(GetFixtureImageTarPath envWorks ⟨"TestA"⟩ "scratch-fixture" ⟨fsScratch, []⟩).2.fs.set
      (path.Join [testFixturesDir, "scratch-fixture"])
      (.dir 0o755 [("Dockerfile", .file 0o644 [70, 82, 79, 77, 32])]),
    (GetFixtureImageTarPath envWorks ⟨"TestA"⟩ "scratch-fixture" ⟨fsScratch, []⟩).2.cmds⟩

/-- A context with the regular files `Dockerfile` and `sub/a`. -/
def contextA : Node :=
  .dir 0o755 [("Dockerfile", .file 0o644 [70, 82, 79, 77, 32, 115, 99, 114, 97, 116, 99, 104]),
    ("sub", .dir 0o755 [("a", .file 0o600 [1, 2])])]

/-- A context with the same regular files as `contextA`, listed in another
order, with other modes, and with a symbolic link, an empty directory and a
special file besides. -/
def contextB : Node :=
  .dir 0o700 [("sub", .dir 0o711 [("link", .symlink "a"), ("a", .file 0o400 [1, 2])]),
    ("empty", .dir 0o755 []),
    ("Dockerfile", .file 0o755 [70, 82, 79, 77, 32, 115, 99, 114, 97, 116, 99, 104]),
    ("dev", .special 0o666)]

/-! # Theorems -/

set_option maxRecDepth 100000

/-! ## `strings.ReplaceAll`, `path.Clean`, `path.Join` -/

namespace strings

theorem replaceLoop_single (a b : Char) (s : List Char) (fuel : Nat) (h : s.length ≤ fuel) :
    replaceLoop [a] [b] fuel s = s.map (fun c => if c = a then b else c) := by
  induction s generalizing fuel with
  | nil => cases fuel <;> simp [replaceLoop]
  | cons c rest ih =>
    cases fuel with
    | zero => simp at h
    | succ n =>
      have hn : rest.length ≤ n := by simpa using h
      by_cases hc : c = a
      · subst hc
        simp [replaceLoop, List.isPrefixOf, ih n hn]
      · have hc2 : ¬ (a = c) := fun h => hc h.symm
        simp [replaceLoop, List.isPrefixOf, ih n hn, hc, hc2]

theorem ReplaceAll_slash (s : String) :
    (ReplaceAll s "/" "_").data = s.data.map (fun c => if c = '/' then '_' else c) := by
  simp [ReplaceAll, replaceLoop_single]

end strings

namespace path


theorem cleanLoop_copy (r : Bool) (e out : List Char) (dd : Nat) (h : '/' ∉ e) :
    cleanLoop r true e out dd = (out ++ e, dd) := by
  induction e generalizing out with
  | nil => simp [cleanLoop]
  | cons c rest ih =>
    have hc : c ≠ '/' := fun hc => h (by simp [hc])
    have hr : '/' ∉ rest := fun hr => h (by simp [hr])
    simp [cleanLoop, hc, ih _ hr]

theorem cleanLoop_elem (r : Bool) (e out : List Char) (dd : Nat) (h : IsElem e) :
    cleanLoop r false e out dd = (addSlash r out ++ e, dd) := by
  obtain ⟨h1, h2, h3, h4⟩ := h
  match e, h1, h2, h3, h4 with
  | [c], _, h2, h3, _ =>
    have hc : c ≠ '/' := fun hc => h2 (by simp [hc])
    have hd : c ≠ '.' := fun hd => h3 (by simp [hd])
    simp [cleanLoop, hc, hd]
  | c :: c2 :: rest, _, h2, _, h4 =>
    have hc : c ≠ '/' := fun hc => h2 (by simp [hc])
    have hc2 : c2 ≠ '/' := fun hc => h2 (by simp [hc])
    have hr : '/' ∉ rest := fun hr => h2 (by simp [hr])
    have hcr : '/' ∉ c2 :: rest := fun hr => h2 (by simp at hr ⊢; tauto)
    have hdd : ¬ (c = '.' ∧ c2 = '.' ∧ atElemEnd rest = true) := by
      rintro ⟨rfl, rfl, h⟩
      cases rest with
      | nil => exact h4 rfl
      | cons c3 r3 =>
        simp [atElemEnd] at h
        exact hr (by simp [h])
    rw [cleanLoop]
    simp only [hc, hc2, hdd, if_false, and_false]
    rw [cleanLoop_copy _ _ _ _ hcr]
    simp

theorem atElemEnd_append (xs ys : List Char) :
    atElemEnd (xs ++ '/' :: ys) = atElemEnd xs := by
  cases xs <;> simp [atElemEnd]

theorem cleanLoop_cons2 (r : Bool) (c c2 : Char) (rest2 out : List Char) (dotdot : Nat) :
    cleanLoop r false (c :: c2 :: rest2) out dotdot =
      if c = '/' then cleanLoop r false (c2 :: rest2) out dotdot
      else if c = '.' ∧ c2 = '/' then cleanLoop r false (c2 :: rest2) out dotdot
      else if c = '.' ∧ c2 = '.' ∧ atElemEnd rest2 = true then
        if out.length > dotdot then
          cleanLoop r false rest2 (out.take (backUp out dotdot (out.length - 1))) dotdot
        else if r = false then
          cleanLoop r false rest2
            ((if out.length > 0 then out ++ ['/'] else out) ++ ['.', '.'])
            ((if out.length > 0 then out ++ ['/'] else out) ++ ['.', '.']).length
        else cleanLoop r false rest2 out dotdot
      else cleanLoop r true (c2 :: rest2) (addSlash r out ++ [c]) dotdot := by
  conv_lhs => rw [cleanLoop]

theorem cleanLoop_append (r : Bool) (n : Nat) : ∀ (m : Bool) (xs ys out : List Char) (dd : Nat),
    xs.length ≤ n →
    cleanLoop r m (xs ++ '/' :: ys) out dd =
      cleanLoop r false ys (cleanLoop r m xs out dd).1 (cleanLoop r m xs out dd).2 := by
  induction n using Nat.strong_induction_on with
  | _ n ih =>
    intro m xs ys out dd hlen
    have base : ∀ (m : Bool) (out : List Char) (dd : Nat),
        cleanLoop r m ('/' :: ys) out dd = cleanLoop r false ys out dd := by
      intro m out dd
      cases m <;> cases ys <;> simp [cleanLoop]
    match m, xs, hlen with
    | m, [], _ =>
      have : cleanLoop r m [] out dd = (out, dd) := by cases m <;> simp [cleanLoop]
      simp [this, base]
    | true, c :: rest, hlen =>
      have hr : rest.length < n := by simp at hlen; omega
      by_cases hc : c = '/'
      · simp [cleanLoop, hc, ih _ hr _ rest ys _ _ (le_refl _)]
      · simp [cleanLoop, hc, ih _ hr _ rest ys _ _ (le_refl _)]
    | false, [c], _ =>
      by_cases hc : c = '/'
      · simp [cleanLoop, hc, base]
      · by_cases hd : c = '.'
        · simp [cleanLoop, hd, base]
        · simp [cleanLoop, hc, hd, base]
    | false, c :: c2 :: rest2, hlen =>
      have hr1 : (c2 :: rest2).length < n := by simp at hlen ⊢; omega
      have hr2 : rest2.length < n := by simp at hlen ⊢; omega
      have ih1 := fun m out dd => ih _ hr1 m (c2 :: rest2) ys out dd (le_refl _)
      have ih2 := fun m out dd => ih _ hr2 m rest2 ys out dd (le_refl _)
      simp only [List.cons_append] at ih1 ⊢
      rw [cleanLoop_cons2 r c c2 (rest2 ++ '/' :: ys), cleanLoop_cons2 r c c2 rest2]
      simp only [atElemEnd_append]
      split_ifs <;> first | exact ih1 _ _ _ | exact ih2 _ _ _

theorem cleanChars_append_elem (q e : List Char) (he : IsElem e) :
    cleanChars (q ++ '/' :: e) = cleanPre q ++ e := by
  have hne : e ≠ [] := he.1
  cases q with
  | nil =>
    simp [cleanChars, cleanPre, cleanLoop_elem _ _ _ _ he, hne, addSlash]
  | cons c q' =>
    by_cases hc : c = '/'
    · simp [cleanChars, cleanPre, hc, cleanLoop_append true _ false q' e _ _ (le_refl _),
        cleanLoop_elem _ _ _ _ he, hne]
    · have := cleanLoop_append false _ false (c :: q') e [] 0 (le_refl _)
      simp only [List.cons_append] at this
      simp [cleanChars, cleanPre, hc, this, cleanLoop_elem _ _ _ _ he, hne]

theorem Join_two (a b : String) (ha : a ≠ "") :
    (Join [a, b]).data = cleanChars (a.data ++ '/' :: b.data) := by
  have hd : a.data ≠ [] := fun h => ha (String.ext h)
  have hl : 0 < a.data.length := List.length_pos.mpr hd
  have hs : ¬ (a.length + b.length = 0) := by
    simp only [String.length]; omega
  have hl2 : 0 < a.length := hl
  simp [Join, joinBuf, hs, Clean, ha, hl2]

theorem exists_last_slash (l : List Char) (h : '/' ∈ l) :
    ∃ q e, l = q ++ '/' :: e ∧ '/' ∉ e := by
  induction l with
  | nil => simp at h
  | cons c rest ih =>
    by_cases hr : '/' ∈ rest
    · obtain ⟨q, e, h1, h2⟩ := ih hr
      exact ⟨c :: q, e, by simp [h1], h2⟩
    · have hc : c = '/' := by
        simp at h
        rcases h with h | h
        · exact h.symm
        · exact absurd h hr
      exact ⟨[], rest, by simp [hc], hr⟩

theorem isElem_append (e suf : List Char) (he : '/' ∉ e) (hs : '/' ∉ suf)
    (hl : 3 ≤ suf.length) : IsElem (e ++ suf) := by
  refine ⟨?_, ?_, ?_, ?_⟩
  · intro h; simp at h; simp [h.2] at hl
  · simp [he, hs]
  · intro h
    have := congrArg List.length h
    simp at this; omega
  · intro h
    have := congrArg List.length h
    simp at this; omega

/-- Joining a non-empty directory with a file name that ends in a slash-free
suffix of at least three characters keeps that suffix, after a prefix that does
not depend on the suffix. -/
theorem Join_suffix (d x : String) (hd : d ≠ "") :
    ∃ P : List Char, ∀ suf : String, '/' ∉ suf.data → 3 ≤ suf.data.length →
      (Join [d, x ++ suf]).data = P ++ suf.data := by
  obtain ⟨q, e, h1, h2⟩ := exists_last_slash (d.data ++ '/' :: x.data) (by simp)
  refine ⟨cleanPre q ++ e, fun suf hs hl => ?_⟩
  rw [Join_two _ _ hd, String.data_append]
  have : d.data ++ '/' :: (x.data ++ suf.data) = q ++ '/' :: (e ++ suf.data) := by
    have := congrArg (· ++ suf.data) h1
    simpa using this
  rw [this, cleanChars_append_elem _ _ (isElem_append e suf.data h2 hs hl)]
  simp

end path

theorem goldenFileDirPath_eq : goldenFileDirPath = "test-fixtures/snapshot" := by decide

theorem cacheDir_eq : cacheDir = "test-fixtures/cache" := by decide

theorem GetGoldenFilePath_data (t : testing.T) :
    (GetGoldenFilePath t).data =
      "test-fixtures/snapshot/".data
        ++ t.Name.data.map (fun c => if c = '/' then '_' else c) ++ ".golden".data := by
  have he : path.IsElem ((strings.ReplaceAll t.Name "/" "_").data ++ ".golden".data) := by
    apply path.isElem_append
    · rw [strings.ReplaceAll_slash]
      simp only [List.mem_map, not_exists, not_and]
      intro c _
      split_ifs with h <;> simp [h]
    · decide
    · decide
  unfold GetGoldenFilePath
  have hext : goldenFileExt = ".golden" := rfl
  rw [hext, path.Join_two _ _ (by decide), String.data_append, goldenFileDirPath_eq,
    path.cleanChars_append_elem _ _ he, strings.ReplaceAll_slash]
  have : path.cleanPre "test-fixtures/snapshot".data = "test-fixtures/snapshot/".data := by decide
  rw [this]
  simp [goldenFileExt]

/-- C1. `GetGoldenFilePath` returns `test-fixtures/snapshot/`, then the test name
with every `/` replaced by `_`, then `.golden`; what follows the snapshot
directory has no `/`; and `Group/SubCase` maps to
`test-fixtures/snapshot/Group_SubCase.golden`. -/
theorem GetGoldenFilePath_spec :
    (∀ t : testing.T,
      (GetGoldenFilePath t).data =
        "test-fixtures/snapshot/".data
          ++ t.Name.data.map (fun c => if c = '/' then '_' else c) ++ ".golden".data
      ∧ '/' ∉ (GetGoldenFilePath t).data.drop "test-fixtures/snapshot/".data.length)
    ∧ GetGoldenFilePath ⟨"Group/SubCase"⟩ = "test-fixtures/snapshot/Group_SubCase.golden" := by
  refine ⟨fun t => ⟨GetGoldenFilePath_data t, ?_⟩, by decide⟩
  rw [GetGoldenFilePath_data, List.append_assoc, List.drop_left]
  simp only [List.mem_append, List.mem_map, not_or, not_exists, not_and]
  refine ⟨?_, by decide⟩
  intro c _
  split_ifs with h <;> simp [h]

/-! ## The filesystem tree -/

theorem Node.find_nil (n : Node) : n.find [] = .ok n := by
  cases n <;> simp [Node.find]

theorem Node.find_dir_cons (m : Nat) (es : List (String × Node)) (c : String) (r : List String) :
    (Node.dir m es).find (c :: r) = findIn es c r := by
  simp [Node.find]

theorem Node.put_nil (n new : Node) : n.put [] new = new := by
  cases n <;> simp [Node.put]

theorem Node.put_dir_cons (m : Nat) (es : List (String × Node)) (c : String) (r : List String)
    (new : Node) : (Node.dir m es).put (c :: r) new = .dir m (putIn es c r new) := by
  simp [Node.put]

/-- Looking up a name and going on from the entry found. -/
theorem findIn_eq (es : List (String × Node)) (c : String) (t : List String) :
    findIn es c t
      = match findIn es c [] with
        | .ok ch => ch.find t
        | .error _ => .error .ENOENT := by
  induction es with
  | nil => simp [findIn]
  | cons e more ih =>
    obtain ⟨n, ch⟩ := e
    by_cases h : n = c
    · simp [findIn, h, Node.find_nil]
    · simp only [findIn, h, if_false]
      exact ih

theorem findIn_putIn_ne (es : List (String × Node)) (a b : String) (s t : List String)
    (new : Node) (h : a ≠ b) : findIn (putIn es a s new) b t = findIn es b t := by
  induction es with
  | nil => cases s <;> simp [putIn, findIn, h]
  | cons e more ih =>
    obtain ⟨n, ch⟩ := e
    by_cases hn : n = a
    · subst hn
      simp [putIn, findIn, h]
    · by_cases hb : n = b
      · subst hb
        simp [putIn, findIn, hn]
      · simp [putIn, findIn, hn, hb, ih]

theorem findIn_putIn_same (es : List (String × Node)) (c : String) (s t : List String)
    (new : Node) :
    findIn (putIn es c s new) c t
      = match findIn es c [] with
        | .ok ch => (ch.put s new).find t
        | .error _ => if s = [] then new.find t else .error .ENOENT := by
  induction es with
  | nil => cases s <;> simp [putIn, findIn]
  | cons e more ih =>
    obtain ⟨n, ch⟩ := e
    by_cases hn : n = c
    · simp [putIn, findIn, hn, Node.find_nil]
    · simp only [putIn, findIn, hn, if_false]
      exact ih

/-- A lookup that leaves the path to the place of a `put` is not changed by it. -/
theorem Node.find_put_diverge (u : List String) (a b : String) (s t : List String)
    (new : Node) (h : a ≠ b) : ∀ root : Node,
    (root.put (u ++ a :: s) new).find (u ++ b :: t) = root.find (u ++ b :: t) := by
  induction u with
  | nil =>
    intro root
    cases root with
    | dir m es => simp [Node.put, Node.find, findIn_putIn_ne _ _ _ _ _ _ h]
    | file m c => simp [Node.put, Node.find]
    | symlink tgt => simp [Node.put, Node.find]
    | special m => simp [Node.put, Node.find]
  | cons c u ih =>
    intro root
    cases root with
    | dir m es =>
      simp only [List.cons_append, Node.put_dir_cons, Node.find_dir_cons]
      rw [findIn_putIn_same, findIn_eq es c (u ++ b :: t)]
      cases findIn es c [] with
      | ok ch => exact ih ch
      | error e => simp
    | file m c => simp [Node.put, Node.find]
    | symlink tgt => simp [Node.put, Node.find]
    | special m => simp [Node.put, Node.find]

theorem Node.find_append (s r : List String) : ∀ root : Node,
    root.find (s ++ r)
      = match root.find s with
        | .ok x => x.find r
        | .error e => .error e := by
  induction s with
  | nil => intro root; simp [Node.find_nil]
  | cons c s ih =>
    intro root
    cases root with
    | dir m es =>
      simp only [List.cons_append, Node.find_dir_cons]
      rw [findIn_eq es c (s ++ r), findIn_eq es c s]
      cases findIn es c [] with
      | ok ch => exact ih ch
      | error e => rfl
    | file m c => simp [Node.find]
    | symlink tgt => simp [Node.find]
    | special m => simp [Node.find]

/-- After a `put` below an entry, the entry is found with the `put` done in it. -/
theorem Node.find_put_above (t r : List String) (new : Node) : ∀ (root x : Node),
    root.find t = .ok x → (root.put (t ++ r) new).find t = .ok (x.put r new) := by
  induction t with
  | nil =>
    intro root x h
    rw [Node.find_nil] at h
    injection h with h
    subst h
    simp [Node.find_nil]
  | cons c t ih =>
    intro root x h
    cases root with
    | dir m es =>
      simp only [List.cons_append, Node.put_dir_cons, Node.find_dir_cons] at h ⊢
      rw [findIn_putIn_same]
      rw [findIn_eq] at h
      cases hc : findIn es c [] with
      | ok ch =>
        rw [hc] at h
        exact ih ch x h
      | error e => rw [hc] at h; cases h
    | file m c => simp [Node.find] at h
    | symlink tgt => simp [Node.find] at h
    | special m => simp [Node.find] at h

/-- The entry put at a place is found there when the place exists or its parent
is a directory. -/
theorem Node.find_put_same (u : List String) (c : String) (new : Node) (root : Node)
    (m : Nat) (es : List (String × Node)) (h : root.find u = .ok (.dir m es)) :
    (root.put (u ++ [c]) new).find (u ++ [c]) = .ok new := by
  rw [Node.find_append, Node.find_put_above u [c] new root _ h]
  simp only [Node.put_dir_cons, Node.find_dir_cons]
  rw [findIn_putIn_same]
  cases findIn es c [] with
  | ok ch => simp [Node.put_nil, Node.find_nil]
  | error e => simp [Node.find_nil]

theorem Node.find_put_of_ok (s : List String) (new root x : Node) (h : root.find s = .ok x) :
    (root.put s new).find s = .ok new := by
  have := Node.find_put_above s [] new root x h
  simpa [Node.put_nil] using this

theorem putIn_putIn (c : String) (s : List String) (a b : Node)
    (ih : ∀ n : Node, (n.put s a).put s b = n.put s b) : ∀ es : List (String × Node),
    putIn (putIn es c s a) c s b = putIn es c s b := by
  intro es
  induction es with
  | nil => cases s <;> simp [putIn, Node.put_nil]
  | cons e more ihm =>
    obtain ⟨n, ch⟩ := e
    by_cases hn : n = c
    · simp [putIn, hn, ih]
    · simp [putIn, hn, ihm]

theorem Node.put_put (s : List String) (a b : Node) : ∀ root : Node,
    (root.put s a).put s b = root.put s b := by
  induction s with
  | nil => intro root; simp [Node.put_nil]
  | cons c s ih =>
    intro root
    cases root with
    | dir m es => simp [Node.put, putIn_putIn c s a b ih]
    | file m c => simp [Node.put]
    | symlink tgt => simp [Node.put]
    | special m => simp [Node.put]

/-- Entering a regular file makes no lookup fail with "does not exist" that did
not fail so before. -/
theorem Node.find_put_file_found (m : Nat) (b : List UInt8) (t : List String) :
    ∀ (s : List String) (root : Node), root.find t ≠ .error .ENOENT →
      (root.put s (.file m b)).find t ≠ .error .ENOENT := by
  induction t with
  | nil => intro s root _; simp [Node.find_nil]
  | cons c t ih =>
    intro s root h
    cases s with
    | nil => simp [Node.put_nil, Node.find]
    | cons d s =>
      cases root with
      | dir mm es =>
        simp only [Node.put_dir_cons, Node.find_dir_cons] at h ⊢
        by_cases hd : d = c
        · subst hd
          rw [findIn_putIn_same]
          rw [findIn_eq] at h
          cases hc : findIn es d [] with
          | ok ch => rw [hc] at h; exact ih s ch h
          | error e => rw [hc] at h; exact absurd rfl h
        · rw [findIn_putIn_ne _ _ _ _ _ _ hd]; exact h
      | file mm cc => simpa [Node.put] using h
      | symlink tgt => simpa [Node.put] using h
      | special mm => simpa [Node.put] using h

/-- Entering anything at a place that does not exist makes no lookup fail with
"does not exist" that did not fail so before. -/
theorem Node.find_put_absent_found (new : Node) (t : List String) :
    ∀ (s : List String) (root : Node), root.find s = .error .ENOENT →
      root.find t ≠ .error .ENOENT → (root.put s new).find t ≠ .error .ENOENT := by
  induction t with
  | nil => intro s root _ _; simp [Node.find_nil]
  | cons c t ih =>
    intro s root hs h
    cases s with
    | nil => simp [Node.find_nil] at hs
    | cons d s =>
      cases root with
      | dir mm es =>
        simp only [Node.put_dir_cons, Node.find_dir_cons] at h hs ⊢
        by_cases hd : d = c
        · subst hd
          rw [findIn_putIn_same]
          rw [findIn_eq] at h hs
          cases hc : findIn es d [] with
          | ok ch => rw [hc] at h hs; exact ih s ch hs h
          | error e => rw [hc] at h; exact absurd rfl h
        · rw [findIn_putIn_ne _ _ _ _ _ _ hd]; exact h
      | file mm cc => simpa [Node.put] using h
      | symlink tgt => simpa [Node.put] using h
      | special mm => simpa [Node.put] using h

/-- Creating an empty directory at a place that does not exist leaves every other
place that does not exist so. -/
theorem Node.find_put_dir_absent (m : Nat) (t : List String) :
    ∀ (s : List String) (root : Node), root.find s = .error .ENOENT → t ≠ s →
      root.find t = .error .ENOENT → (root.put s (.dir m [])).find t = .error .ENOENT := by
  induction t with
  | nil => intro s root _ _ h; simp [Node.find_nil] at h
  | cons c t ih =>
    intro s root hs hne h
    cases s with
    | nil => simp [Node.find_nil] at hs
    | cons d s =>
      cases root with
      | dir mm es =>
        simp only [Node.put_dir_cons, Node.find_dir_cons] at h hs ⊢
        by_cases hd : d = c
        · subst hd
          have hne' : t ≠ s := fun e => hne (by rw [e])
          rw [findIn_putIn_same]
          rw [findIn_eq] at h hs
          cases hc : findIn es d [] with
          | ok ch => rw [hc] at h hs; exact ih s ch hs hne' h
          | error e =>
            cases s with
            | nil =>
              cases t with
              | nil => exact absurd rfl hne'
              | cons x t => simp [Node.find, findIn]
            | cons y s => simp
        · rw [findIn_putIn_ne _ _ _ _ _ _ hd]; exact h
      | file mm cc => simp [Node.find] at h
      | symlink tgt => simp [Node.find] at h
      | special mm => simp [Node.find] at h

/-- Entering an entry without children at a place that does not exist changes
the entry found only at that place and at the directories above it. -/
theorem Node.find_put_absent_other (new : Node)
    (hnew : ∀ x r, (new.find (x :: r)).toOption = none) (t : List String) :
    ∀ (s : List String) (root : Node), root.find s = .error .ENOENT → ¬ t <+: s →
      ((root.put s new).find t).toOption = (root.find t).toOption := by
  induction t with
  | nil => intro s root _ h; exact absurd List.nil_prefix h
  | cons c t ih =>
    intro s root hs hpre
    cases s with
    | nil => simp [Node.find_nil] at hs
    | cons d s =>
      cases root with
      | dir mm es =>
        simp only [Node.put_dir_cons, Node.find_dir_cons] at hs ⊢
        by_cases hd : d = c
        · subst hd
          have hpre' : ¬ t <+: s := fun e => hpre (List.cons_prefix_cons.mpr ⟨rfl, e⟩)
          rw [findIn_putIn_same, findIn_eq es d t]
          rw [findIn_eq] at hs
          cases hc : findIn es d [] with
          | ok ch => rw [hc] at hs; exact ih s ch hs hpre'
          | error e =>
            cases s with
            | nil =>
              cases t with
              | nil => exact absurd List.nil_prefix hpre'
              | cons x t =>
                have := hnew x t
                simpa [Except.toOption] using this
            | cons y s => simp [Except.toOption]
        · rw [findIn_putIn_ne _ _ _ _ _ _ hd]
      | file mm cc => simp [Node.put]
      | symlink tgt => simp [Node.put]
      | special mm => simp [Node.put]

theorem FS.get_eq (fs : FS) (p : String) : fs p = (fs.root.find (os.locate p)).toOption := rfl

theorem os.Stat_of_some {fs : FS} {p : String} {n : Node} (h : fs p = some n) :
    os.Stat fs p = .ok n := by
  rw [FS.get_eq] at h
  unfold os.Stat
  cases hf : fs.root.find (os.locate p) with
  | ok x => rw [hf] at h; simp [Except.toOption] at h; rw [h]
  | error e => rw [hf] at h; simp [Except.toOption] at h

theorem os.Stat_of_none (fs : FS) (p : String) (h : fs p = none) :
    ∃ e, os.Stat fs p = .error e := by
  rw [FS.get_eq] at h
  unfold os.Stat
  cases hf : fs.root.find (os.locate p) with
  | ok x => rw [hf] at h; simp [Except.toOption] at h
  | error e => exact ⟨e, rfl⟩

theorem FS.found_iff (fs : FS) (p : String) :
    fs.found p = true ↔ fs.root.find (os.locate p) ≠ .error .ENOENT := by
  unfold FS.found os.Stat
  cases fs.root.find (os.locate p) with
  | ok x => simp [os.errOf, os.IsNotExist]
  | error e => cases e <;> simp [os.errOf, os.IsNotExist]

theorem FS.find_of_not_found {fs : FS} {p : String} (h : fs.found p = false) :
    fs.root.find (os.locate p) = .error .ENOENT := by
  by_contra hne
  rw [(FS.found_iff fs p).mpr hne] at h
  cases h

theorem FS.found_of_some (fs : FS) (p : String) (h : fs p ≠ none) : fs.found p = true := by
  rw [FS.found_iff]
  intro he
  rw [FS.get_eq, he] at h
  exact h rfl

theorem FS.none_of_not_found (fs : FS) (p : String) (h : fs.found p = false) : fs p = none := by
  rw [FS.get_eq, FS.find_of_not_found h]
  rfl

theorem FS.set_same_of_some (fs : FS) (p : String) (n x : Node) (h : fs p = some x) :
    (fs.set p n) p = some n := by
  have hs := os.Stat_of_some h
  unfold os.Stat at hs
  rw [FS.get_eq]
  unfold FS.set
  rw [Node.find_put_of_ok _ n _ x hs]
  rfl

theorem FS.set_same_of_parent (fs : FS) (p : String) (n : Node)
    (h : os.parentErr fs p = none) : (fs.set p n) p = some n := by
  rw [FS.get_eq]
  unfold FS.set
  unfold os.parentErr at h
  rcases List.eq_nil_or_concat (os.locate p) with hn | ⟨u, c, hc⟩
  · rw [hn]; simp [Node.put_nil, Node.find_nil, Except.toOption]
  · rw [List.concat_eq_append] at hc
    rw [hc, List.dropLast_concat] at h
    rw [hc]
    cases hf : fs.root.find u with
    | error e => rw [hf] at h; simp at h
    | ok x =>
      rw [hf] at h
      cases x with
      | dir m es => rw [Node.find_put_same u c n fs.root m es hf]; rfl
      | file m b => simp at h
      | symlink t => simp at h
      | special m => simp at h

theorem FS.set_set (fs : FS) (p : String) (a b : Node) : (fs.set p a).set p b = fs.set p b := by
  unfold FS.set
  rw [Node.put_put]

theorem FS.found_set_same (fs : FS) (p : String) (n : Node) (h : os.parentErr fs p = none) :
    (fs.set p n).found p = true :=
  FS.found_of_some _ _ (by rw [FS.set_same_of_parent fs p n h]; simp)

/-- Entering a regular file at some path makes no path disappear from the view
of `fileOrDirExists`. -/
theorem FS.found_set_file (fs : FS) (p q : String) (m : Nat) (b : List UInt8)
    (h : fs.found q = true) : (fs.set p (.file m b)).found q = true := by
  rw [FS.found_iff] at h ⊢
  exact Node.find_put_file_found m b _ _ _ h

/-- Entering anything at a path that `fileOrDirExists` does not find makes no path
disappear from its view. -/
theorem FS.found_set_of_not_found (fs : FS) (p q : String) (n : Node)
    (hp : fs.found p = false) (h : fs.found q = true) : (fs.set p n).found q = true := by
  rw [FS.found_iff] at h ⊢
  exact Node.find_put_absent_found n _ _ _ (FS.find_of_not_found hp) h

/-- Creating an empty directory at a path that `fileOrDirExists` does not find
brings no other place into its view. -/
theorem FS.not_found_set_dir (fs : FS) (p q : String) (m : Nat)
    (hp : fs.found p = false) (hne : os.locate q ≠ os.locate p) (h : fs.found q = false) :
    (fs.set p (.dir m [])).found q = false := by
  have := Node.find_put_dir_absent m _ _ _ (FS.find_of_not_found hp) hne (FS.find_of_not_found h)
  cases hf : (fs.set p (.dir m [])).found q with
  | false => rfl
  | true =>
    rw [FS.found_iff] at hf
    exact absurd this hf

theorem Node.file_no_child (m : Nat) (b : List UInt8) (x : String) (r : List String) :
    ((Node.file m b).find (x :: r)).toOption = none := by
  simp [Node.find, Except.toOption]

theorem Node.emptyDir_no_child (m : Nat) (x : String) (r : List String) :
    ((Node.dir m []).find (x :: r)).toOption = none := by
  simp [Node.find, findIn, Except.toOption]

/-- Creating a regular file at a path that `fileOrDirExists` does not find changes
the entry found only at that place and at the directories above it. -/
theorem FS.set_file_of_not_found (fs : FS) (p q : String) (m : Nat) (b : List UInt8)
    (hp : fs.found p = false) (hq : ¬ os.locate q <+: os.locate p) :
    (fs.set p (.file m b)) q = fs q := by
  rw [FS.get_eq, FS.get_eq]
  exact Node.find_put_absent_other _ (Node.file_no_child m b) _ _ _ (FS.find_of_not_found hp) hq

/-- Creating an empty directory at a path that `fileOrDirExists` does not find
changes the entry found only at that place and at the directories above it. -/
theorem FS.set_dir_of_not_found (fs : FS) (p q : String) (m : Nat)
    (hp : fs.found p = false) (hq : ¬ os.locate q <+: os.locate p) :
    (fs.set p (.dir m [])) q = fs q := by
  rw [FS.get_eq, FS.get_eq]
  exact Node.find_put_absent_other _ (Node.emptyDir_no_child m) _ _ _ (FS.find_of_not_found hp) hq

namespace os

theorem openTrunc_ok {fs fs1 : FS} {p : String} {perm : Nat} (h : openTrunc fs p perm = .ok fs1) :
    ∃ m, fs1 = fs.set p (.file m []) ∧ fs1 p = some (.file m []) := by
  unfold openTrunc at h
  split at h
  · rename_i m c hp
    injection h with h
    exact ⟨m, h.symm, by rw [← h]; exact FS.set_same_of_some fs p _ _ hp⟩
  · cases h
  · cases h
  · split at h
    · cases h
    · rename_i hpe
      injection h with h
      exact ⟨_, h.symm, by rw [← h]; exact FS.set_same_of_parent fs p _ hpe⟩

theorem write_file (fs : FS) (p : String) (m : Nat) (old data : List UInt8)
    (h : fs p = some (.file m old)) : write fs p data = fs.set p (.file m (old ++ data)) := by
  unfold write
  have : FS.get fs p = some (.file m old) := h
  simp [this]

theorem write_created (fs : FS) (p : String) (m : Nat) (data : List UInt8)
    (h : parentErr fs p = none) :
    write (fs.set p (.file m [])) p data = fs.set p (.file m data) := by
  rw [write_file _ p m [] data (FS.set_same_of_parent fs p _ h), FS.set_set]
  simp

theorem write_at (fs : FS) (p : String) (m : Nat) (data : List UInt8)
    (h : fs p = some (.file m [])) : write fs p data p = some (.file m data) := by
  rw [write_file fs p m [] data h]
  exact FS.set_same_of_some fs p _ _ h

theorem WriteFile_ok {fs fs1 : FS} {p : String} {data : List UInt8} {perm : Nat}
    (h : WriteFile fs p data perm = .ok fs1) : ∃ m, fs1 p = some (.file m data) := by
  unfold WriteFile at h
  split at h
  · cases h
  · rename_i fs0 h0
    obtain ⟨m, _, hm⟩ := openTrunc_ok h0
    injection h with h
    exact ⟨m, by rw [← h, write_at _ _ _ _ hm]⟩

theorem Open_of_some (fs : FS) (p : String) (h : fs p ≠ none) : Open fs p = .ok p := by
  unfold Open
  cases hp : fs p with
  | none => exact absurd hp h
  | some n => rw [Stat_of_some hp]

theorem Open_of_none (fs : FS) (p : String) (h : fs p = none) :
    ∃ e, Open fs p = .error e := by
  unfold Open
  obtain ⟨e, he⟩ := Stat_of_none fs p h
  exact ⟨e, by rw [he]⟩

end os
theorem GetGoldenFileContents_of_file (t : testing.T) (w : World) (m : Nat) (b : List UInt8)
    (h : w.fs (GetGoldenFilePath t) = some (.file m b)) :
    GetGoldenFileContents t w = (.ok b, w) := by
  have hf : fileOrDirExists t (GetGoldenFilePath t) w = true :=
    FS.found_of_some _ _ (by simp [h])
  simp [GetGoldenFileContents, hf, os.Open_of_some _ _ (show w.fs (GetGoldenFilePath t) ≠ none
    by simp [h]), os.readAll, Node.read, h]

/-- C2. When `UpdateGoldenFileContents` succeeds in writing `B` (whether or not a
golden file was there before), `GetGoldenFileContents` run right after it for the
same test returns exactly `B`. -/
theorem UpdateGoldenFileContents_then_Get (t : testing.T) (B : List UInt8) (w : World)
    (h : (UpdateGoldenFileContents t B w).1 = .ok ()) :
    (GetGoldenFileContents t (UpdateGoldenFileContents t B w).2).1 = .ok B := by
  unfold UpdateGoldenFileContents at h ⊢
  dsimp only at h ⊢
  split at h
  · simp at h
  · rename_i fs1 h1
    obtain ⟨m, hm⟩ := os.WriteFile_ok h1
    rw [GetGoldenFileContents_of_file t _ m B hm]

theorem UpdateGoldenFileContents_then_Get_witness :
    (UpdateGoldenFileContents ⟨"Suite_CaseA"⟩ [101, 120, 112, 101, 99, 116, 101, 100]
        ⟨fsLayout, []⟩).1 = .ok ()
    ∧ (GetGoldenFileContents ⟨"Suite_CaseA"⟩
        (UpdateGoldenFileContents ⟨"Suite_CaseA"⟩ [101, 120, 112, 101, 99, 116, 101, 100]
          ⟨fsLayout, []⟩).2).1 = .ok [101, 120, 112, 101, 99, 116, 101, 100] :=
  ⟨by decide, UpdateGoldenFileContents_then_Get _ _ _ (by decide)⟩

/-- C3. When nothing exists at the golden path of the test, `GetGoldenFileContents`
aborts the test (it returns no bytes) and leaves the state as it was: the golden
file is still absent. -/
theorem GetGoldenFileContents_absent (t : testing.T) (w : World)
    (h : w.fs (GetGoldenFilePath t) = none) :
    (∃ msg, GetGoldenFileContents t w = (.fatal msg, w))
    ∧ (GetGoldenFileContents t w).2.fs (GetGoldenFilePath t) = none := by
  have key : ∃ msg, GetGoldenFileContents t w = (.fatal msg, w) := by
    unfold GetGoldenFileContents
    cases hf : fileOrDirExists t (GetGoldenFilePath t) w with
    | false => exact ⟨"golden file does not exist", by simp [hf]⟩
    | true =>
      obtain ⟨e, he⟩ := os.Open_of_none w.fs _ h
      exact ⟨"could not open file", by simp [he, hf]⟩
  obtain ⟨msg, hm⟩ := key
  exact ⟨⟨msg, hm⟩, by rw [hm]; exact h⟩

theorem GetGoldenFileContents_absent_witness :
    (⟨fsLayout, []⟩ : World).fs (GetGoldenFilePath ⟨"Group/SubCase"⟩) = none
    ∧ GetGoldenFileContents ⟨"Group/SubCase"⟩ ⟨fsLayout, []⟩
        = (.fatal "golden file does not exist", ⟨fsLayout, []⟩)
    ∧ (GetGoldenFileContents ⟨"Group/SubCase"⟩ ⟨fsLayout, []⟩).2.fs
        (GetGoldenFilePath ⟨"Group/SubCase"⟩) = none :=
  have h := GetGoldenFileContents_absent ⟨"Group/SubCase"⟩ ⟨fsLayout, []⟩ rfl
  ⟨rfl, rfl, h.2⟩

/-! ## The runs of `getFixtureImageTarPath` -/

theorem dirHash_of_none (t : testing.T) (root : String) (w : World)
    (h : w.fs root = none) : ∃ e, dirHash t root w = ("", some e) := by
  obtain ⟨e, he⟩ := os.Stat_of_none w.fs root h
  exact ⟨e, by simp [dirHash, filepath.Walk, he, dirHashWalkFn]⟩

theorem dirHash_congr (t t' : testing.T) (root : String) (n : Node) (w w' : World)
    (h : w.fs root = some n) (h' : w'.fs root = some n) :
    dirHash t' root w' = dirHash t root w := by
  simp [dirHash, filepath.Walk, os.Stat_of_some h, os.Stat_of_some h']

theorem fixtureVersion_congr (t t' : testing.T) (name v : String) (w w' : World)
    (h : w'.fs (contextPath name) = w.fs (contextPath name))
    (hv : fixtureVersion t name w = .ok v) :
    fixtureVersion t' name w' = .ok v := by
  unfold contextPath at h
  cases hn : w.fs (path.Join [testFixturesDir, name]) with
  | none =>
    obtain ⟨e, he⟩ := dirHash_of_none t _ w hn
    simp [fixtureVersion, he] at hv
  | some n =>
    rw [hn] at h
    unfold fixtureVersion at hv ⊢
    dsimp only at hv ⊢
    rw [dirHash_congr t t' _ n w w' hn h]
    exact hv

theorem fixtureVersion_cases (t : testing.T) (name : String) (w : World) :
    (∃ v, fixtureVersion t name w = .ok v) ∨ (∃ e, fixtureVersion t name w = .panic e) := by
  unfold fixtureVersion
  rcases h : dirHash t (path.Join [testFixturesDir, name]) w with ⟨s, _ | e⟩
  · exact .inl ⟨s, by simp [h]⟩
  · exact .inr ⟨e, by simp [h]⟩

theorem fixtureVersion_congr_panic (t t' : testing.T) (name : String) (e : os.Error)
    (w w' : World) (h : w'.fs (contextPath name) = w.fs (contextPath name))
    (hv : fixtureVersion t name w = .panic e) :
    ∃ e', fixtureVersion t' name w' = .panic e' := by
  rcases fixtureVersion_cases t' name w' with ⟨v, hv'⟩ | ⟨e', hv'⟩
  · have := fixtureVersion_congr t' t name v w' w h.symm hv'
    rw [hv] at this
    cases this
  · exact ⟨e', hv'⟩

theorem getFixtureImageInfo_of_version {t : testing.T} {name : String} {w : World}
    {v : String} (h : fixtureVersion t name w = .ok v) :
    getFixtureImageInfo t name w = .ok (imagePrefix ++ "-" ++ name, v) := by
  simp [getFixtureImageInfo, h]

theorem getFixtureImageInfo_of_panic {t : testing.T} {name : String} {w : World}
    {e : os.Error} (h : fixtureVersion t name w = .panic e) :
    getFixtureImageInfo t name w = .panic e := by
  simp [getFixtureImageInfo, h]

theorem fileOrDirExists_eq (t : testing.T) (p : String) (w : World) :
    fileOrDirExists t p w = w.fs.found p := rfl

theorem os.Mkdir_cases (fs : FS) (p : String) (perm : Nat) (h : fs.found p = false) :
    (os.Mkdir fs p perm = .ok (fs.set p (.dir perm [])) ∧ os.parentErr fs p = none)
    ∨ ((∃ e, os.Mkdir fs p perm = .error e) ∧ os.parentErr fs p ≠ none) := by
  have hn : FS.get fs p = none := FS.none_of_not_found _ _ h
  unfold os.Mkdir
  simp only [hn]
  cases hd : os.parentErr fs p with
  | none => exact .inl ⟨rfl, rfl⟩
  | some e => exact .inr ⟨⟨e, rfl⟩, by simp⟩

theorem os.Create_cases (fs : FS) (p : String) (h : fs.found p = false) :
    (os.Create fs p = .ok (fs.set p (.file 0o666 [])) ∧ os.parentErr fs p = none)
    ∨ ((∃ e, os.Create fs p = .error e) ∧ os.parentErr fs p ≠ none) := by
  have hn : FS.get fs p = none := FS.none_of_not_found _ _ h
  unfold os.Create os.openTrunc
  simp only [hn]
  cases hd : os.parentErr fs p with
  | none => exact .inl ⟨rfl, rfl⟩
  | some e => exact .inr ⟨⟨e, rfl⟩, by simp⟩

theorem cacheDirEnsured_of_found (fs : FS) (h : fs.found cacheDir = true) :
    cacheDirEnsured fs = fs := by
  simp [cacheDirEnsured, h]

theorem cacheDirEnsured_of_not_found (fs : FS) (h : fs.found cacheDir = false) :
    cacheDirEnsured fs = fs.set cacheDir (.dir 0o755 []) := by
  simp [cacheDirEnsured, h]

theorem cacheDirEnsured_cacheDir (fs : FS)
    (h : fs.found cacheDir = true ∨ os.parentErr fs cacheDir = none) :
    (cacheDirEnsured fs).found cacheDir = true := by
  cases hf : fs.found cacheDir with
  | true => rw [cacheDirEnsured_of_found fs hf]; exact hf
  | false =>
    rw [cacheDirEnsured_of_not_found fs hf]
    rcases h with h | h
    · rw [hf] at h; cases h
    · exact FS.found_set_same _ _ _ h

/-- Creating the missing cache directory changes the entry found only at its
place and at the directories above it. -/
theorem cacheDirEnsured_other (fs : FS) (q : String)
    (h : ¬ os.locate q <+: os.locate cacheDir) : cacheDirEnsured fs q = fs q := by
  cases h' : fs.found cacheDir with
  | true => rw [cacheDirEnsured_of_found fs h']
  | false => rw [cacheDirEnsured_of_not_found fs h', FS.set_dir_of_not_found _ _ _ _ h' h]

/-- Creating the missing cache directory makes no path disappear from the view
of `fileOrDirExists`. -/
theorem cacheDirEnsured_found_of_found (fs : FS) (q : String) (h : fs.found q = true) :
    (cacheDirEnsured fs).found q = true := by
  cases h' : fs.found cacheDir with
  | true => rw [cacheDirEnsured_of_found fs h']; exact h
  | false =>
    rw [cacheDirEnsured_of_not_found fs h']
    exact FS.found_set_of_not_found _ _ _ _ h' h

/-- Creating the missing cache directory does not change what `fileOrDirExists`
answers for other places. -/
theorem cacheDirEnsured_found (fs : FS) (q : String)
    (h : os.locate q ≠ os.locate cacheDir) :
    (cacheDirEnsured fs).found q = fs.found q := by
  cases hq : fs.found q with
  | true => exact cacheDirEnsured_found_of_found fs q hq
  | false =>
    cases h' : fs.found cacheDir with
    | true => rw [cacheDirEnsured_of_found fs h']; exact hq
    | false =>
      rw [cacheDirEnsured_of_not_found fs h']
      exact FS.not_found_set_dir _ _ _ _ h' h hq

/-- A cache hit: when `fileOrDirExists` finds the cache directory and the tar,
the path is returned and nothing else happens. -/
theorem getFixtureImageTarPath_hit (env : Env) (t : testing.T) (name dir file v : String)
    (w : World) (hv : fixtureVersion t name w = .ok v)
    (hc : w.fs.found cacheDir = true) (hp : w.fs.found (path.Join [dir, file]) = true) :
    getFixtureImageTarPath env t name dir file w = (.ok (path.Join [dir, file]), w) := by
  simp [getFixtureImageTarPath, getFixtureImageInfo, hv, fileOrDirExists_eq, hc, hp]

/-- The block of `getFixtureImageTarPath` after the cache directory is there. -/
theorem tarBlock_run (env : Env) (t : testing.T) (ctx img v p : String) (w : World)
    (hc : (cacheDirEnsured w.fs).found cacheDir = true) :
    TarPathRun env ctx img v p w
      (if (!fileOrDirExists t p ⟨cacheDirEnsured w.fs, w.cmds⟩) = true then
        if (!(if (!(hasImage env t (img ++ ":" ++ v) ⟨cacheDirEnsured w.fs, w.cmds⟩).1) = true then
              buildImage env t ctx img v
                (hasImage env t (img ++ ":" ++ v) ⟨cacheDirEnsured w.fs, w.cmds⟩).2
            else (true, (hasImage env t (img ++ ":" ++ v) ⟨cacheDirEnsured w.fs, w.cmds⟩).2)).1)
            = true then
          (.fatal "could not build fixture image",
            (if (!(hasImage env t (img ++ ":" ++ v) ⟨cacheDirEnsured w.fs, w.cmds⟩).1) = true then
              buildImage env t ctx img v
                (hasImage env t (img ++ ":" ++ v) ⟨cacheDirEnsured w.fs, w.cmds⟩).2
            else (true, (hasImage env t (img ++ ":" ++ v) ⟨cacheDirEnsured w.fs, w.cmds⟩).2)).2)
        else
          match saveImage env t (img ++ ":" ++ v) p
            (if (!(hasImage env t (img ++ ":" ++ v) ⟨cacheDirEnsured w.fs, w.cmds⟩).1) = true then
              buildImage env t ctx img v
                (hasImage env t (img ++ ":" ++ v) ⟨cacheDirEnsured w.fs, w.cmds⟩).2
            else (true, (hasImage env t (img ++ ":" ++ v) ⟨cacheDirEnsured w.fs, w.cmds⟩).2)).2 with
          | (.ok true, w3) => (.ok p, w3)
          | (.ok false, w3) => (.fatal "could not save fixture image", w3)
          | (.fatal m, w3) => (.fatal m, w3)
          | (.panic e, w3) => (.panic e, w3)
      else (.ok p, ⟨cacheDirEnsured w.fs, w.cmds⟩)) := by
  cases hp : (cacheDirEnsured w.fs).found p with
  | true =>
    have hp' : fileOrDirExists t p ⟨cacheDirEnsured w.fs, w.cmds⟩ = true := hp
    simp only [hp', Bool.not_true]
    exact .hit hc hp
  | false =>
    have hp' : fileOrDirExists t p ⟨cacheDirEnsured w.fs, w.cmds⟩ = false := hp
    simp only [hp', Bool.not_false, if_true]
    have hcreate := os.Create_cases (cacheDirEnsured w.fs) p hp
    have hsave : ∀ cmdsB : List Cmd, BuiltCmds env ctx img v w.cmds cmdsB →
        TarPathRun env ctx img v p w
          (match saveImage env t (img ++ ":" ++ v) p ⟨cacheDirEnsured w.fs, cmdsB⟩ with
          | (.ok true, w3) => (.ok p, w3)
          | (.ok false, w3) => (.fatal "could not save fixture image", w3)
          | (.fatal m, w3) => (.fatal m, w3)
          | (.panic e, w3) => (.panic e, w3)) := by
      intro cmdsB hb
      unfold saveImage runCmd
      rcases hcreate with ⟨h, hd⟩ | ⟨⟨e, h⟩, hd⟩
      · simp only [h, os.write_created _ _ _ _ hd]
        cases hs : (env.docker cmdsB (.save (img ++ ":" ++ v))).success with
        | true => exact .saved cmdsB hc hp hb hd hs
        | false => exact .saveFailed cmdsB hc hp hb hd hs
      · simp only [h]
        exact .createFailed cmdsB hc hp hb hd
    unfold hasImage buildImage runCmd
    cases hi : (env.docker w.cmds (.inspect (img ++ ":" ++ v))).success with
    | true =>
      simp only [hi, Bool.not_true, Bool.false_eq_true, if_false]
      exact hsave _ (.has hi)
    | false =>
      simp only [hi, Bool.not_false, if_true]
      cases hb : (env.docker (w.cmds ++ [.inspect (img ++ ":" ++ v)])
          (.build ctx (img ++ ":" ++ v) (img ++ ":latest"))).success with
      | true =>
        simp only [hb, Bool.not_true, Bool.false_eq_true, if_false]
        have := hsave _ (.built hi hb)
        simpa using this
      | false =>
        simp only [hb, Bool.not_false, if_true]
        have := @TarPathRun.buildFailed env ctx img v p w hc hp hi hb
        simpa using this

/-- Every run of `getFixtureImageTarPath` that gets past `getFixtureImageInfo`
takes one of the branches of `TarPathRun`. -/
theorem getFixtureImageTarPath_run (env : Env) (t : testing.T) (name dir file img v : String)
    (w : World) (hinfo : getFixtureImageInfo t name w = .ok (img, v)) :
    TarPathRun env (path.Join [testFixturesDir, name]) img v (path.Join [dir, file]) w
      (getFixtureImageTarPath env t name dir file w) := by
  unfold getFixtureImageTarPath
  simp only [hinfo]
  cases hc : w.fs.found cacheDir with
  | false =>
    have hc' : fileOrDirExists t cacheDir w = false := hc
    simp only [hc', Bool.not_false, if_true]
    rcases os.Mkdir_cases w.fs cacheDir 0o755 hc with ⟨hm, hd⟩ | ⟨⟨e, hm⟩, hd⟩
    · simp only [hm, ← cacheDirEnsured_of_not_found _ hc]
      exact tarBlock_run env t _ img v _ w (cacheDirEnsured_cacheDir _ (.inr hd))
    · simp only [hm]
      exact .mkdirFailed hc hd
  | true =>
    have hc' : fileOrDirExists t cacheDir w = true := hc
    simp only [hc', Bool.not_true]
    have hA : w = ⟨cacheDirEnsured w.fs, w.cmds⟩ := by
      rw [cacheDirEnsured_of_found _ hc]
    have := tarBlock_run env t (path.Join [testFixturesDir, name]) img v (path.Join [dir, file]) w
      (cacheDirEnsured_cacheDir _ (.inl hc))
    rw [← hA] at this
    exact this

theorem GetFixtureImageTarPath_run (env : Env) (t : testing.T) (name v : String) (w : World)
    (hv : fixtureVersion t name w = .ok v) :
    TarPathRun env (contextPath name) (imagePrefix ++ "-" ++ name) v (cachePath name v) w
      (GetFixtureImageTarPath env t name w) := by
  have hinfo := getFixtureImageInfo_of_version hv
  unfold GetFixtureImageTarPath
  simp only [hinfo]
  exact getFixtureImageTarPath_run env t name cacheDir _ _ v w hinfo

theorem GetFixtureImageTarPath_panic (env : Env) (t : testing.T) (name : String) (w : World)
    (e : os.Error) (hv : fixtureVersion t name w = .panic e) :
    GetFixtureImageTarPath env t name w = (.panic e, w) := by
  simp [GetFixtureImageTarPath, getFixtureImageInfo_of_panic hv]

theorem GetFixtureImageTarPath_hit (env : Env) (t : testing.T) (name v : String) (w : World)
    (hv : fixtureVersion t name w = .ok v)
    (hc : w.fs.found cacheDir = true) (hp : w.fs.found (cachePath name v) = true) :
    GetFixtureImageTarPath env t name w = (.ok (cachePath name v), w) := by
  have hinfo := getFixtureImageInfo_of_version hv
  unfold GetFixtureImageTarPath
  simp only [hinfo]
  exact getFixtureImageTarPath_hit env t name cacheDir _ v w hv hc hp

namespace TarPathRun

variable {env : Env} {ctx img v p : String} {w : World} {r : Outcome String × World}

theorem builtCmds_count {cmds cmdsB : List Cmd} (h : BuiltCmds env ctx img v cmds cmdsB) :
    (cmdsB.filter Cmd.isBuild).length ≤ (cmds.filter Cmd.isBuild).length + 1
    ∧ (cmdsB.filter Cmd.isSave).length = (cmds.filter Cmd.isSave).length := by
  cases h <;> simp [List.filter_append, List.filter_cons, Cmd.isBuild, Cmd.isSave]

theorem cmds_le (h : TarPathRun env ctx img v p w r) :
    r.2.builds ≤ w.builds + 1 ∧ r.2.saves ≤ w.saves + 1 := by
  unfold World.builds World.saves
  cases h with
  | mkdirFailed hc hd => simp
  | hit hc hp => simp
  | buildFailed hc hp h hb =>
    simp [List.filter_append, List.filter_cons, Cmd.isBuild, Cmd.isSave]
  | createFailed cmdsB hc hp hb hd =>
    have := builtCmds_count hb
    simp only; omega
  | saveFailed cmdsB hc hp hb hd hs =>
    have := builtCmds_count hb
    simp [List.filter_append, List.filter_cons, Cmd.isBuild, Cmd.isSave]; omega
  | saved cmdsB hc hp hb hd hs =>
    have := builtCmds_count hb
    simp [List.filter_append, List.filter_cons, Cmd.isBuild, Cmd.isSave]; omega

theorem saves_cases (h : TarPathRun env ctx img v p w r) :
    r.2.saves = w.saves
    ∨ (r.2.saves = w.saves + 1 ∧ r.2.fs.found p = true ∧ r.2.fs.found cacheDir = true) := by
  cases h with
  | mkdirFailed hc hd => exact .inl rfl
  | hit hc hp => exact .inl rfl
  | buildFailed hc hp h hb =>
    exact .inl (by simp [World.saves, List.filter_append, List.filter_cons, Cmd.isSave])
  | createFailed cmdsB hc hp hb hd => exact .inl (builtCmds_count hb).2
  | saveFailed cmdsB hc hp hb hd hs =>
    refine .inr ⟨?_, FS.found_set_same _ _ _ hd, FS.found_set_file _ _ _ _ _ hc⟩
    have := (builtCmds_count hb).2
    simp [World.saves, List.filter_append, List.filter_cons, Cmd.isSave]
    omega
  | saved cmdsB hc hp hb hd hs =>
    refine .inr ⟨?_, FS.found_set_same _ _ _ hd, FS.found_set_file _ _ _ _ _ hc⟩
    have := (builtCmds_count hb).2
    simp [World.saves, List.filter_append, List.filter_cons, Cmd.isSave]
    omega

theorem ok_post (h : TarPathRun env ctx img v p w r) (hok : r.1.isOk = true) :
    r.1 = .ok p ∧ r.2.fs.found p = true ∧ r.2.fs.found cacheDir = true := by
  cases h with
  | mkdirFailed hc hd => simp [Outcome.isOk] at hok
  | hit hc hp => exact ⟨rfl, hp, hc⟩
  | buildFailed hc hp h hb => simp [Outcome.isOk] at hok
  | createFailed cmdsB hc hp hb hd => simp [Outcome.isOk] at hok
  | saveFailed cmdsB hc hp hb hd hs => simp [Outcome.isOk] at hok
  | saved cmdsB hc hp hb hd hs =>
    exact ⟨rfl, FS.found_set_same _ _ _ hd, FS.found_set_file _ _ _ _ _ hc⟩

theorem frame (h : TarPathRun env ctx img v p w r) (q : String)
    (hq : ¬ os.locate q <+: os.locate cacheDir) (hqp : ¬ os.locate q <+: os.locate p) :
    r.2.fs q = w.fs q := by
  cases h with
  | mkdirFailed hc hd => rfl
  | hit hc hp => exact cacheDirEnsured_other _ _ hq
  | buildFailed hc hp h hb => exact cacheDirEnsured_other _ _ hq
  | createFailed cmdsB hc hp hb hd => exact cacheDirEnsured_other _ _ hq
  | saveFailed cmdsB hc hp hb hd hs =>
    exact (FS.set_file_of_not_found _ _ _ _ _ hp hqp).trans (cacheDirEnsured_other _ _ hq)
  | saved cmdsB hc hp hb hd hs =>
    exact (FS.set_file_of_not_found _ _ _ _ _ hp hqp).trans (cacheDirEnsured_other _ _ hq)

theorem not_found_of_ensured (hp : (cacheDirEnsured w.fs).found p = false) :
    w.fs.found p = false := by
  cases h : w.fs.found p with
  | false => rfl
  | true => rw [cacheDirEnsured_found_of_found _ _ h] at hp; cases hp

/-- A path that `fileOrDirExists` finds is found, with the same entry, after the
block that creates the cache directory. -/
theorem ensured_of_found (hp : w.fs.found p = true)
    (hq : ¬ os.locate p <+: os.locate cacheDir) :
    (cacheDirEnsured w.fs).found p = true ∧ cacheDirEnsured w.fs p = w.fs p :=
  ⟨cacheDirEnsured_found_of_found _ _ hp, cacheDirEnsured_other _ _ hq⟩

theorem present (h : TarPathRun env ctx img v p w r) (hp : w.fs.found p = true)
    (hq : ¬ os.locate p <+: os.locate cacheDir) :
    r.2.cmds = w.cmds ∧ r.2.fs p = w.fs p
    ∧ (r.1 = .ok p ∨ r = (.fatal "could not create tar cache dir", w)) := by
  obtain ⟨hp1, hp2⟩ := ensured_of_found (w := w) hp hq
  cases h with
  | mkdirFailed hc hd => simp
  | hit hc hp' => exact ⟨rfl, hp2, .inl rfl⟩
  | buildFailed hc hp' h hb => rw [hp1] at hp'; cases hp'
  | createFailed cmdsB hc hp' hb hd => rw [hp1] at hp'; cases hp'
  | saveFailed cmdsB hc hp' hb hd hs => rw [hp1] at hp'; cases hp'
  | saved cmdsB hc hp' hb hd hs => rw [hp1] at hp'; cases hp'

theorem saveFailed_post (h : TarPathRun env ctx img v p w r)
    (hr : r.1 = .fatal "could not save fixture image") :
    (∃ b, r.2.fs p = some (.file 0o666 b)) ∧ r.2.fs.found cacheDir = true
    ∧ r.2.saves = w.saves + 1 ∧ w.fs p = none := by
  cases h with
  | mkdirFailed hc hd => simp at hr
  | hit hc hp => simp at hr
  | buildFailed hc hp h hb => simp at hr
  | createFailed cmdsB hc hp hb hd => simp at hr
  | saved cmdsB hc hp hb hd hs => simp at hr
  | saveFailed cmdsB hc hp hb hd hs =>
    refine ⟨⟨(env.docker cmdsB (.save (img ++ ":" ++ v))).stdout,
        FS.set_same_of_parent _ _ _ hd⟩,
      FS.found_set_file _ _ _ _ _ hc, ?_, FS.none_of_not_found _ _ (not_found_of_ensured hp)⟩
    have := builtCmds_count hb
    simp [World.saves, List.filter_append, List.filter_cons, Cmd.isSave]
    omega

/-- A run that runs `save`, the engine answering with a failure, ends in the abort
on the failed save. -/
theorem save_failed (h : TarPathRun env ctx img v p w r) (hs : r.2.saves = w.saves + 1)
    (hf : ∀ cs, r.2.cmds = cs ++ [.save (img ++ ":" ++ v)] →
      (env.docker cs (.save (img ++ ":" ++ v))).success = false) :
    r.1 = .fatal "could not save fixture image" := by
  cases h with
  | mkdirFailed hc hd => simp at hs
  | hit hc hp => simp [World.saves] at hs
  | buildFailed hc hp h hb =>
    simp [World.saves, List.filter_append, List.filter_cons, Cmd.isSave] at hs
  | createFailed cmdsB hc hp hb hd =>
    have := (builtCmds_count hb).2
    simp only [World.saves] at hs
    omega
  | saved cmdsB hc hp hb hd hs' =>
    have := hf cmdsB rfl
    rw [hs'] at this
    cases this
  | saveFailed cmdsB hc hp hb hd hs' => rfl

theorem builtCmds_eq {cmds cmdsB : List Cmd} (h : BuiltCmds env ctx img v cmds cmdsB) :
    cmdsB = cmds ++ .inspect (img ++ ":" ++ v)
      :: (if (env.docker cmds (.inspect (img ++ ":" ++ v))).success = true then []
          else [.build ctx (img ++ ":" ++ v) (img ++ ":latest")]) := by
  cases h with
  | has h => simp [h]
  | built h hb => simp [h]

/-- A run that does not find the tar and returns has run `inspect`, then `build`
unless the engine had the image, then `save`, and has created the tar. -/
theorem absent_ok (h : TarPathRun env ctx img v p w r) (hp : w.fs.found p = false)
    (hpc : os.locate p ≠ os.locate cacheDir) (hok : r.1.isOk = true) :
    r.2.cmds = w.cmds ++ .inspect (img ++ ":" ++ v)
        :: (if (env.docker w.cmds (.inspect (img ++ ":" ++ v))).success = true then []
            else [.build ctx (img ++ ":" ++ v) (img ++ ":latest")])
        ++ [.save (img ++ ":" ++ v)]
    ∧ ∃ b, r.2.fs p = some (.file 0o666 b) := by
  have hp2 : (cacheDirEnsured w.fs).found p = false := by rw [cacheDirEnsured_found _ _ hpc, hp]
  cases h with
  | mkdirFailed hc hd => simp [Outcome.isOk] at hok
  | hit hc hp' => rw [hp2] at hp'; cases hp'
  | buildFailed hc hp h hb => simp [Outcome.isOk] at hok
  | createFailed cmdsB hc hp hb hd => simp [Outcome.isOk] at hok
  | saveFailed cmdsB hc hp hb hd hs => simp [Outcome.isOk] at hok
  | saved cmdsB hc hp hb hd hs =>
    refine ⟨?_, _, FS.set_same_of_parent _ _ _ hd⟩
    simp only [builtCmds_eq hb, List.append_assoc, List.cons_append]

end TarPathRun

/-! ## The places of the cache and golden image paths -/

namespace os

theorem elements_of_no_slash (e : List Char) (h : '/' ∉ e) : elements e = [e] := by
  induction e with
  | nil => rfl
  | cons c e ih =>
    simp only [List.mem_cons, not_or] at h
    have hc : c ≠ '/' := fun x => h.1 x.symm
    simp [elements, hc, ih h.2]

/-- The elements of a path that ends in text without `/`: that text is the end of
the last element, and the elements before it do not depend on it. -/
theorem elements_append (P : List Char) :
    ∃ (I : List (List Char)) (l : List Char), ∀ e : List Char, '/' ∉ e →
      elements (P ++ e) = I ++ [l ++ e] := by
  induction P with
  | nil => exact ⟨[], [], fun e he => by simp [elements_of_no_slash e he]⟩
  | cons c P ih =>
    obtain ⟨I, l, h⟩ := ih
    by_cases hc : c = '/'
    · exact ⟨[] :: I, l, fun e he => by simp [elements, hc, h e he]⟩
    · cases I with
      | nil => exact ⟨[], c :: l, fun e he => by simp [elements, hc, h e he]⟩
      | cons x I => exact ⟨(c :: x) :: I, l, fun e he => by simp [elements, hc, h e he]⟩

/-- The place of a path that ends in text without `/` whose last character is not
a dot: the last name ends in that text, and the names before it do not depend on
it. -/
theorem locate_append (P : List Char) :
    ∃ (base : List String) (l : List Char), ∀ (q : String) (e : List Char) (ch : Char),
      q.data = P ++ e → '/' ∉ e → e.getLast? = some ch → ch ≠ '.' →
      locate q = base ++ [String.mk (l ++ e)] := by
  obtain ⟨I, l, h⟩ := elements_append P
  refine ⟨I.foldl step [], l, fun q e ch hq he hl hch => ?_⟩
  have hne : e ≠ [] := by
    intro h0
    rw [h0] at hl
    cases hl
  have hlast : (l ++ e).getLast? = some ch := by
    rw [List.getLast?_append_of_ne_nil _ hne, hl]
  unfold locate
  rw [hq, h e he, List.foldl_append]
  simp only [List.foldl_cons, List.foldl_nil]
  unfold step
  have h1 : l ++ e ≠ [] := by simp [hne]
  have h2 : l ++ e ≠ ['.'] := by
    intro h0
    rw [h0] at hlast
    simp at hlast
    exact hch hlast.symm
  have h3 : l ++ e ≠ ['.', '.'] := by
    intro h0
    rw [h0] at hlast
    simp at hlast
    exact hch hlast.symm
  simp [h1, h2, h3]

/-- A place whose last name ends in a character in which no name of `L` ends is
not on the way to `L`. -/
theorem not_above_of_last (base L : List String) (x : String) (ch : Char)
    (hx : x.data.getLast? = some ch) (hL : ∀ y ∈ L, y.data.getLast? ≠ some ch) :
    ¬ (base ++ [x]) <+: L := by
  intro h
  have hmem : x ∈ L := h.subset (by simp)
  exact hL x hmem hx

end os

/-! ## The shape of the cache and golden image paths -/

namespace fmt

theorem hexDigit_ne_slash : ∀ n, n < 16 → hexDigit n ≠ '/' := by decide

theorem hex_no_slash (b : List UInt8) : '/' ∉ (hex b).data := by
  unfold hex
  simp only [List.mem_flatMap, not_exists, not_and]
  intro x _ hx
  have h256 : x.toNat < 256 := x.val.isLt
  simp only [List.mem_cons, List.mem_singleton, List.not_mem_nil, or_false] at hx
  rcases hx with h | h
  · exact hexDigit_ne_slash _ (by omega) h.symm
  · exact hexDigit_ne_slash _ (by omega) h.symm

end fmt

theorem fixtureVersion_no_slash {t : testing.T} {name v : String} {w : World}
    (h : fixtureVersion t name w = .ok v) : '/' ∉ v.data := by
  unfold fixtureVersion dirHash at h
  dsimp only at h
  split at h
  · cases h
  · rename_i s heq
    injection h with h
    subst h
    split at heq
    · cases heq
    · injection heq with h1 h2
      rw [← h1]
      exact fmt.hex_no_slash _

/-- The shape of a cache path: a prefix given by the fixture name, then the
version, then `.tar`. -/
theorem cachePath_shape (name : String) :
    ∃ P : List Char, ∀ v : String, '/' ∉ v.data →
      (cachePath name v).data = P ++ v.data ++ ".tar".data := by
  obtain ⟨P, hP⟩ := path.Join_suffix cacheDir (imagePrefix ++ "-" ++ name ++ "-") (by decide)
  refine ⟨P, fun v hv => ?_⟩
  have := hP (v ++ ".tar") (by simp [hv]) (by simp)
  unfold cachePath
  rw [String.append_assoc, this]
  simp

theorem goldenImagePath_shape (name : String) :
    ∃ P : List Char, (goldenImagePath name).data = P ++ ".golden".data := by
  obtain ⟨P, hP⟩ := path.Join_suffix goldenFileDirPath (imagePrefix ++ "-" ++ name) (by decide)
  exact ⟨P, hP ".golden" (by decide) (by decide)⟩

theorem cachePath_injective (name v1 v2 : String) (h1 : '/' ∉ v1.data) (h2 : '/' ∉ v2.data)
    (hne : v1 ≠ v2) : cachePath name v1 ≠ cachePath name v2 := by
  obtain ⟨P, hP⟩ := cachePath_shape name
  intro h
  have := congrArg String.data h
  rw [hP v1 h1, hP v2 h2] at this
  simp only [List.append_assoc, List.append_cancel_left_eq, List.append_cancel_right_eq] at this
  exact hne (String.ext this)

theorem locate_cacheDir : os.locate cacheDir = ["test-fixtures", "cache"] := by decide

theorem locate_cachePath (name : String) :
    ∃ (base : List String) (l : List Char), ∀ v : String, '/' ∉ v.data →
      os.locate (cachePath name v) = base ++ [String.mk (l ++ (v.data ++ ".tar".data))] := by
  obtain ⟨P, hP⟩ := cachePath_shape name
  obtain ⟨base, l, h⟩ := os.locate_append P
  refine ⟨base, l, fun v hv => h _ _ 'r' (by rw [hP v hv, List.append_assoc]) ?_ ?_ (by decide)⟩
  · simp [hv]
  · simp

theorem locate_goldenImagePath (name : String) :
    ∃ (base : List String) (l : List Char),
      os.locate (goldenImagePath name) = base ++ [String.mk (l ++ ".golden".data)] := by
  obtain ⟨P, hP⟩ := goldenImagePath_shape name
  obtain ⟨base, l, h⟩ := os.locate_append P
  exact ⟨base, l, h _ _ 'n' hP (by decide) (by decide) (by decide)⟩

/-- No cache path is the cache directory or a directory above it. -/
theorem cachePath_not_above_cacheDir (name v : String) (hv : '/' ∉ v.data) :
    ¬ os.locate (cachePath name v) <+: os.locate cacheDir := by
  obtain ⟨base, l, h⟩ := locate_cachePath name
  rw [h v hv, locate_cacheDir]
  exact os.not_above_of_last _ _ _ 'r' (by simp) (by decide)

/-- The cache paths of two versions of a fixture are two entries of one directory. -/
theorem cachePath_not_above_cachePath (name v1 v2 : String) (h1 : '/' ∉ v1.data)
    (h2 : '/' ∉ v2.data) (hne : v1 ≠ v2) :
    ¬ os.locate (cachePath name v1) <+: os.locate (cachePath name v2) := by
  obtain ⟨base, l, h⟩ := locate_cachePath name
  rw [h v1 h1, h v2 h2]
  intro hp
  have := (List.prefix_append_right_inj base).mp hp
  have heq := List.IsPrefix.eq_of_length this (by simp)
  have hd := congrArg (fun x : List String => x.map String.data) heq
  simp only [List.map_cons, List.map_nil, List.cons.injEq, and_true,
    List.append_cancel_left_eq, List.append_cancel_right_eq] at hd
  exact hne (String.ext hd)

/-- No golden image path is the cache directory or a directory above it. -/
theorem goldenImagePath_not_above_cacheDir (name : String) :
    ¬ os.locate (goldenImagePath name) <+: os.locate cacheDir := by
  obtain ⟨base, l, h⟩ := locate_goldenImagePath name
  rw [h, locate_cacheDir]
  exact os.not_above_of_last _ _ _ 'n' (by simp) (by decide)

theorem ne_of_not_above {s t : List String} (h : ¬ s <+: t) : s ≠ t :=
  fun e => h (e ▸ List.prefix_refl s)

/-! ## Repeated resolution -/

/-- C4, counterexample. With an engine whose `build` fails, two calls of
`GetFixtureImageTarPath` in sequence (the context directory untouched) run
`docker build` twice. -/
theorem GetFixtureImageTarPath_twice_two_builds :
    (GetFixtureImageTarPath envBuildFails ⟨"TestA"⟩ "scratch-fixture" ⟨fsScratch, []⟩).2.fs
        (contextPath "scratch-fixture")
      = fsScratch (contextPath "scratch-fixture")
    ∧ (GetFixtureImageTarPath envBuildFails ⟨"TestB"⟩ "scratch-fixture"
        (GetFixtureImageTarPath envBuildFails ⟨"TestA"⟩ "scratch-fixture"
          ⟨fsScratch, []⟩).2).2.builds = 2
    ∧ ¬ ((GetFixtureImageTarPath envBuildFails ⟨"TestB"⟩ "scratch-fixture"
        (GetFixtureImageTarPath envBuildFails ⟨"TestA"⟩ "scratch-fixture"
          ⟨fsScratch, []⟩).2).2.builds ≤ (⟨fsScratch, []⟩ : World).builds + 1) := by
  refine ⟨rfl, by decide, by decide⟩

/-- C4, amended. Two `GetFixtureImageTarPath` calls in sequence, the context
directory being after the first call what it was before it (so the first call
did not write into it, as it does when the context directory holds the cache
directory), run `save` at most once in total.  When the first call returns, the
second call returns the same path and leaves the state as it is (it runs no
engine command), so `build` too is run at most once in total. -/
theorem GetFixtureImageTarPath_twice (env : Env) (t t' : testing.T) (name : String) (w : World)
    (hctx : (GetFixtureImageTarPath env t name w).2.fs (contextPath name)
      = w.fs (contextPath name)) :
    (GetFixtureImageTarPath env t' name (GetFixtureImageTarPath env t name w).2).2.saves
      ≤ w.saves + 1
    ∧ ((GetFixtureImageTarPath env t name w).1.isOk = true →
        GetFixtureImageTarPath env t' name (GetFixtureImageTarPath env t name w).2
          = GetFixtureImageTarPath env t name w
        ∧ (GetFixtureImageTarPath env t' name (GetFixtureImageTarPath env t name w).2).2.builds
          ≤ w.builds + 1) := by
  rcases fixtureVersion_cases t name w with ⟨v, hv⟩ | ⟨e, hv⟩
  · have hrun := GetFixtureImageTarPath_run env t name v w hv
    have hv' : fixtureVersion t' name (GetFixtureImageTarPath env t name w).2 = .ok v :=
      fixtureVersion_congr t t' name v w _ hctx hv
    have hrun2 := GetFixtureImageTarPath_run env t' name v _ hv'
    refine ⟨?_, fun hok => ?_⟩
    · rcases hrun.saves_cases with h0 | ⟨h1, hp, hc⟩
      · have := hrun2.cmds_le.2
        omega
      · rw [GetFixtureImageTarPath_hit env t' name v _ hv' hc hp]
        exact le_of_eq h1
    · have hpost := hrun.ok_post hok
      have h2 := GetFixtureImageTarPath_hit env t' name v _ hv' hpost.2.2 hpost.2.1
      have h2' : GetFixtureImageTarPath env t' name (GetFixtureImageTarPath env t name w).2
          = GetFixtureImageTarPath env t name w := by
        rw [h2]; exact Prod.ext hpost.1.symm rfl
      rw [h2']
      exact ⟨rfl, hrun.cmds_le.1⟩
  · have h1 := GetFixtureImageTarPath_panic env t name w e hv
    obtain ⟨e', hv'⟩ := fixtureVersion_congr_panic t t' name e w _ hctx hv
    rw [GetFixtureImageTarPath_panic env t' name _ e' hv', h1]
    exact ⟨Nat.le_succ _, fun hok => by simp [Outcome.isOk] at hok⟩

theorem GetFixtureImageTarPath_twice_witness :
    (GetFixtureImageTarPath envWorks ⟨"TestA"⟩ "scratch-fixture" ⟨fsScratch, []⟩).1
      = .ok "test-fixtures/cache/anchore-fixture-scratch-fixture-67c4282c6928ae380489b6392127b14bb16d8c2f5ba5fa285a934f4f94387b5e.tar"
    ∧ (GetFixtureImageTarPath envWorks ⟨"TestA"⟩ "scratch-fixture" ⟨fsScratch, []⟩).2.cmds
      = [.inspect "anchore-fixture-scratch-fixture:67c4282c6928ae380489b6392127b14bb16d8c2f5ba5fa285a934f4f94387b5e",
         .build "test-fixtures/scratch-fixture"
           "anchore-fixture-scratch-fixture:67c4282c6928ae380489b6392127b14bb16d8c2f5ba5fa285a934f4f94387b5e"
           "anchore-fixture-scratch-fixture:latest",
         .save "anchore-fixture-scratch-fixture:67c4282c6928ae380489b6392127b14bb16d8c2f5ba5fa285a934f4f94387b5e"]
    ∧ (GetFixtureImageTarPath envWorks ⟨"TestB"⟩ "scratch-fixture"
        (GetFixtureImageTarPath envWorks ⟨"TestA"⟩ "scratch-fixture"
          ⟨fsScratch, []⟩).2).2.saves ≤ (⟨fsScratch, []⟩ : World).saves + 1
    ∧ GetFixtureImageTarPath envWorks ⟨"TestB"⟩ "scratch-fixture"
        (GetFixtureImageTarPath envWorks ⟨"TestA"⟩ "scratch-fixture" ⟨fsScratch, []⟩).2
      = GetFixtureImageTarPath envWorks ⟨"TestA"⟩ "scratch-fixture" ⟨fsScratch, []⟩
    ∧ (GetFixtureImageTarPath envWorks ⟨"TestB"⟩ "scratch-fixture"
        (GetFixtureImageTarPath envWorks ⟨"TestA"⟩ "scratch-fixture"
          ⟨fsScratch, []⟩).2).2.builds ≤ (⟨fsScratch, []⟩ : World).builds + 1 :=
  have h := GetFixtureImageTarPath_twice envWorks ⟨"TestA"⟩ ⟨"TestB"⟩ "scratch-fixture"
    ⟨fsScratch, []⟩ rfl
  ⟨by decide, by decide, h.1, h.2 (by decide)⟩

/-- A context directory that holds the cache directory: for the fixture `cache`
the tar saved by the first call is in the context of the second, which has
another version and saves again. -/
theorem GetFixtureImageTarPath_twice_cache_in_context :
    (GetFixtureImageTarPath envWorks ⟨"TestA"⟩ "cache" ⟨fsLayout, []⟩).2.fs (contextPath "cache")
      = some (.dir 0o755
          [("anchore-fixture-cache-e3b0c44298fc1c149afbf4c8996fb92427ae41e4649b934ca495991b7852b855.tar",
            .file 0o666 [1, 2, 3])])
    ∧ (GetFixtureImageTarPath envWorks ⟨"TestB"⟩ "cache"
        (GetFixtureImageTarPath envWorks ⟨"TestA"⟩ "cache" ⟨fsLayout, []⟩).2).1
      = .ok "test-fixtures/cache/anchore-fixture-cache-039058c6f2c0cb492c533b0a4d14ef77cc0f78abccced5287d84a1a2011cfb81.tar"
    ∧ (GetFixtureImageTarPath envWorks ⟨"TestB"⟩ "cache"
        (GetFixtureImageTarPath envWorks ⟨"TestA"⟩ "cache" ⟨fsLayout, []⟩).2).2.saves = 2 :=
  ⟨rfl, by decide, by decide⟩

/-- C10. When a `GetFixtureImageTarPath` call runs `save` (it gets there only
when nothing was at the cache path) and the engine answers the `save` with a
failure, the call aborts, and a file exists at the cache path afterwards; with
the context directory as before, the next call returns that path and leaves the
state as it is (it runs no engine command): the failed save is served as a cache
hit. -/
theorem GetFixtureImageTarPath_failed_save_is_hit (env : Env) (t t' : testing.T)
    (name v : String) (w : World)
    (hv : fixtureVersion t name w = .ok v)
    (hreach : (GetFixtureImageTarPath env t name w).2.saves = w.saves + 1)
    (hfail : ∀ cs, (GetFixtureImageTarPath env t name w).2.cmds
        = cs ++ [.save (fullImageName name v)] →
      (env.docker cs (.save (fullImageName name v))).success = false)
    (hctx : (GetFixtureImageTarPath env t name w).2.fs (contextPath name)
      = w.fs (contextPath name)) :
    (GetFixtureImageTarPath env t name w).1 = .fatal "could not save fixture image"
    ∧ w.fs (cachePath name v) = none
    ∧ (∃ b, (GetFixtureImageTarPath env t name w).2.fs (cachePath name v)
        = some (.file 0o666 b))
    ∧ GetFixtureImageTarPath env t' name (GetFixtureImageTarPath env t name w).2
      = (.ok (cachePath name v), (GetFixtureImageTarPath env t name w).2) := by
  have hrun := GetFixtureImageTarPath_run env t name v w hv
  have hfatal := hrun.save_failed hreach hfail
  obtain ⟨⟨b, hb⟩, hc, _, habs⟩ := hrun.saveFailed_post hfatal
  have hv' : fixtureVersion t' name (GetFixtureImageTarPath env t name w).2 = .ok v :=
    fixtureVersion_congr t t' name v w _ hctx hv
  exact ⟨hfatal, habs, ⟨b, hb⟩,
    GetFixtureImageTarPath_hit env t' name v _ hv' hc (FS.found_of_some _ _ (by simp [hb]))⟩

theorem GetFixtureImageTarPath_failed_save_is_hit_witness :
    fixtureVersion ⟨"TestA"⟩ "scratch-fixture" ⟨fsScratch, []⟩
      = .ok "67c4282c6928ae380489b6392127b14bb16d8c2f5ba5fa285a934f4f94387b5e"
    ∧ (GetFixtureImageTarPath envSaveFails ⟨"TestA"⟩ "scratch-fixture" ⟨fsScratch, []⟩).2.cmds
      = [.inspect "anchore-fixture-scratch-fixture:67c4282c6928ae380489b6392127b14bb16d8c2f5ba5fa285a934f4f94387b5e",
         .save "anchore-fixture-scratch-fixture:67c4282c6928ae380489b6392127b14bb16d8c2f5ba5fa285a934f4f94387b5e"]
    ∧ ((GetFixtureImageTarPath envSaveFails ⟨"TestA"⟩ "scratch-fixture" ⟨fsScratch, []⟩).1
        = .fatal "could not save fixture image"
      ∧ fsScratch (cachePath "scratch-fixture"
          "67c4282c6928ae380489b6392127b14bb16d8c2f5ba5fa285a934f4f94387b5e") = none
      ∧ (∃ b, (GetFixtureImageTarPath envSaveFails ⟨"TestA"⟩ "scratch-fixture"
          ⟨fsScratch, []⟩).2.fs
            (cachePath "scratch-fixture"
              "67c4282c6928ae380489b6392127b14bb16d8c2f5ba5fa285a934f4f94387b5e")
          = some (.file 0o666 b))
      ∧ GetFixtureImageTarPath envSaveFails ⟨"TestB"⟩ "scratch-fixture"
          (GetFixtureImageTarPath envSaveFails ⟨"TestA"⟩ "scratch-fixture" ⟨fsScratch, []⟩).2
        = (.ok (cachePath "scratch-fixture"
              "67c4282c6928ae380489b6392127b14bb16d8c2f5ba5fa285a934f4f94387b5e"),
            (GetFixtureImageTarPath envSaveFails ⟨"TestA"⟩ "scratch-fixture"
              ⟨fsScratch, []⟩).2)) :=
  ⟨by decide, by decide,
    GetFixtureImageTarPath_failed_save_is_hit envSaveFails ⟨"TestA"⟩ ⟨"TestB"⟩ "scratch-fixture"
      "67c4282c6928ae380489b6392127b14bb16d8c2f5ba5fa285a934f4f94387b5e" ⟨fsScratch, []⟩
      (by decide) (by decide) (fun _ _ => rfl) rfl⟩

/-! ### C5 -/

theorem GetGoldenFixtureImage_world (env : Env) (t : testing.T) (name v : String) (w : World)
    (hv : fixtureVersion t name w = .ok v) :
    (GetGoldenFixtureImage env t name w).2
        = (getFixtureImageTarPath env t name goldenFileDirPath
            (imagePrefix ++ "-" ++ name ++ goldenFileExt) w).2
    ∧ ((GetGoldenFixtureImage env t name w).1.isOk = true →
        (getFixtureImageTarPath env t name goldenFileDirPath
            (imagePrefix ++ "-" ++ name ++ goldenFileExt) w).1.isOk = true) := by
  have hinfo := getFixtureImageInfo_of_version hv
  unfold GetGoldenFixtureImage
  simp only [hinfo]
  rcases h : getFixtureImageTarPath env t name goldenFileDirPath
      (imagePrefix ++ "-" ++ name ++ goldenFileExt) w with ⟨o, w1⟩
  cases o with
  | ok p =>
    simp only [getFixtureImageFromTar]
    cases env.GetImage w1.fs ("docker-archive://" ++ p) <;> simp [Outcome.isOk]
  | fatal m => simp [Outcome.isOk]
  | panic e => simp [Outcome.isOk]

/-- C5, counterexample. With no golden image snapshotted, `GetGoldenFixtureImage`
runs `build` and `save` and creates the file at the golden image path. -/
theorem GetGoldenFixtureImage_builds_when_absent :
    fsScratch (goldenImagePath "scratch-fixture") = none
    ∧ (GetGoldenFixtureImage envWorks ⟨"TestA"⟩ "scratch-fixture" ⟨fsScratch, []⟩).2.builds = 1
    ∧ (GetGoldenFixtureImage envWorks ⟨"TestA"⟩ "scratch-fixture" ⟨fsScratch, []⟩).2.saves = 1
    ∧ (GetGoldenFixtureImage envWorks ⟨"TestA"⟩ "scratch-fixture" ⟨fsScratch, []⟩).2.fs
        (goldenImagePath "scratch-fixture") = some (.file 0o666 [1, 2, 3]) :=
  ⟨rfl, by decide, by decide, rfl⟩

/-- C5, amended. When `fileOrDirExists` finds the golden image path (an entry
exists there), `GetGoldenFixtureImage` runs no engine command and leaves what is
at that path as it is.  When it does not find it and the call returns, the call
has run `inspect`, then `build` unless the engine already had the image of the
fixture version, then `save` (once), and has created the file at the golden
image path. -/
theorem GetGoldenFixtureImage_frame (env : Env) (t : testing.T) (name : String) (w : World) :
    (fileOrDirExists t (goldenImagePath name) w = true →
      (GetGoldenFixtureImage env t name w).2.cmds = w.cmds
      ∧ (GetGoldenFixtureImage env t name w).2.fs (goldenImagePath name)
          = w.fs (goldenImagePath name))
    ∧ (fileOrDirExists t (goldenImagePath name) w = false →
        (GetGoldenFixtureImage env t name w).1.isOk = true →
        ∃ v, fixtureVersion t name w = .ok v
          ∧ (GetGoldenFixtureImage env t name w).2.cmds
              = w.cmds ++ .inspect (fullImageName name v)
                  :: (if (env.docker w.cmds (.inspect (fullImageName name v))).success = true
                      then []
                      else [.build (contextPath name) (fullImageName name v)
                        (imagePrefix ++ "-" ++ name ++ ":latest")])
                  ++ [.save (fullImageName name v)]
          ∧ (GetGoldenFixtureImage env t name w).2.saves = w.saves + 1
          ∧ ∃ b, (GetGoldenFixtureImage env t name w).2.fs (goldenImagePath name)
              = some (.file 0o666 b)) := by
  rcases fixtureVersion_cases t name w with ⟨v, hv⟩ | ⟨e, hv⟩
  · have hrun := getFixtureImageTarPath_run env t name goldenFileDirPath
      (imagePrefix ++ "-" ++ name ++ goldenFileExt) _ v w (getFixtureImageInfo_of_version hv)
    obtain ⟨hw, hok⟩ := GetGoldenFixtureImage_world env t name v w hv
    rw [hw]
    refine ⟨fun hp => ?_, fun hp hisok => ?_⟩
    · have := hrun.present hp (goldenImagePath_not_above_cacheDir name)
      exact ⟨this.1, this.2.1⟩
    · obtain ⟨hc, hf⟩ := hrun.absent_ok hp
        (ne_of_not_above (goldenImagePath_not_above_cacheDir name)) (hok hisok)
      refine ⟨v, hv, hc, ?_, hf⟩
      unfold World.saves
      rw [hc]
      by_cases hi : (env.docker w.cmds
          (Cmd.inspect (imagePrefix ++ "-" ++ name ++ ":" ++ v))).success = true
      · simp [hi, List.filter_append, List.filter_cons, Cmd.isSave]
      · simp [hi, List.filter_append, List.filter_cons, Cmd.isSave]
  · have : GetGoldenFixtureImage env t name w = (.panic e, w) := by
      simp [GetGoldenFixtureImage, getFixtureImageInfo_of_panic hv]
    rw [this]
    refine ⟨fun _ => ⟨rfl, rfl⟩, fun _ h => ?_⟩
    simp [Outcome.isOk] at h

theorem GetGoldenFixtureImage_frame_witness :
    fileOrDirExists ⟨"TestA"⟩ (goldenImagePath "scratch-fixture")
        ⟨fsScratch.set (goldenImagePath "scratch-fixture") (.file 0o644 [9, 9]), []⟩ = true
    ∧ (GetGoldenFixtureImage envWorks ⟨"TestA"⟩ "scratch-fixture"
        ⟨fsScratch.set (goldenImagePath "scratch-fixture") (.file 0o644 [9, 9]), []⟩).2.cmds = []
    ∧ (GetGoldenFixtureImage envWorks ⟨"TestA"⟩ "scratch-fixture"
        ⟨fsScratch.set (goldenImagePath "scratch-fixture") (.file 0o644 [9, 9]), []⟩).2.fs
          (goldenImagePath "scratch-fixture")
        = some (.file 0o644 [9, 9]) :=
  have h := (GetGoldenFixtureImage_frame envWorks ⟨"TestA"⟩ "scratch-fixture"
    ⟨fsScratch.set (goldenImagePath "scratch-fixture") (.file 0o644 [9, 9]), []⟩).1
    (by decide)
  ⟨by decide, h.1, h.2.trans rfl⟩

/-! ### C8 -/

/-- C8, counterexample. After a first call, the context `scratch-fixture` is
edited (its bytes are split over two files).  The second call returns the same
cache path as the first and runs neither `build` nor `save`: the tar cached for
the old context is reused. -/
theorem GetFixtureImageTarPath_stale_reuse :
    ((GetFixtureImageTarPath envWorks ⟨"TestA"⟩ "scratch-fixture" ⟨fsScratch, []⟩).2.fs.set
        (contextPath "scratch-fixture") splitContext) (contextPath "scratch-fixture")
      ≠ (GetFixtureImageTarPath envWorks ⟨"TestA"⟩ "scratch-fixture" ⟨fsScratch, []⟩).2.fs
        (contextPath "scratch-fixture")
    ∧ (GetFixtureImageTarPath envWorks ⟨"TestB"⟩ "scratch-fixture"
        ⟨(GetFixtureImageTarPath envWorks ⟨"TestA"⟩ "scratch-fixture" ⟨fsScratch, []⟩).2.fs.set
            (contextPath "scratch-fixture") splitContext,
          (GetFixtureImageTarPath envWorks ⟨"TestA"⟩ "scratch-fixture" ⟨fsScratch, []⟩).2.cmds⟩).1
      = (GetFixtureImageTarPath envWorks ⟨"TestA"⟩ "scratch-fixture" ⟨fsScratch, []⟩).1
    ∧ (GetFixtureImageTarPath envWorks ⟨"TestB"⟩ "scratch-fixture"
        ⟨(GetFixtureImageTarPath envWorks ⟨"TestA"⟩ "scratch-fixture" ⟨fsScratch, []⟩).2.fs.set
            (contextPath "scratch-fixture") splitContext,
          (GetFixtureImageTarPath envWorks ⟨"TestA"⟩ "scratch-fixture" ⟨fsScratch, []⟩).2.cmds⟩).2.cmds
      = (GetFixtureImageTarPath envWorks ⟨"TestA"⟩ "scratch-fixture" ⟨fsScratch, []⟩).2.cmds := by
  refine ⟨?_, by decide, by decide⟩
  have h1 : ((GetFixtureImageTarPath envWorks ⟨"TestA"⟩ "scratch-fixture"
      ⟨fsScratch, []⟩).2.fs.set (contextPath "scratch-fixture") splitContext)
      (contextPath "scratch-fixture") = some splitContext := rfl
  have h2 : (GetFixtureImageTarPath envWorks ⟨"TestA"⟩ "scratch-fixture"
      ⟨fsScratch, []⟩).2.fs (contextPath "scratch-fixture") = some scratchContext := rfl
  rw [h1, h2]
  simp [splitContext, scratchContext]

/-- C8, amended. When the context directory changes so that the fixture version
(`dirHash`) changes from `v1` to `v2`, the cache path changes with it; the second
call returns only the new path, leaves whatever is at the old path untouched,
and, when `fileOrDirExists` finds nothing at the new path and the call returns,
has run `inspect`, then `build` unless the engine already had the image of the
new version, then `save` into the new path. -/
theorem GetFixtureImageTarPath_new_version (env : Env) (t t' : testing.T) (name v1 v2 : String)
    (w w' : World)
    (hv1 : fixtureVersion t name w = .ok v1)
    (hv2 : fixtureVersion t' name w' = .ok v2)
    (hne : v1 ≠ v2) :
    cachePath name v2 ≠ cachePath name v1
    ∧ (∀ p, (GetFixtureImageTarPath env t' name w').1 = .ok p → p = cachePath name v2)
    ∧ (GetFixtureImageTarPath env t' name w').2.fs (cachePath name v1)
        = w'.fs (cachePath name v1)
    ∧ (fileOrDirExists t' (cachePath name v2) w' = false →
        (GetFixtureImageTarPath env t' name w').1.isOk = true →
        (GetFixtureImageTarPath env t' name w').2.cmds
            = w'.cmds ++ .inspect (fullImageName name v2)
                :: (if (env.docker w'.cmds (.inspect (fullImageName name v2))).success = true
                    then []
                    else [.build (contextPath name) (fullImageName name v2)
                      (imagePrefix ++ "-" ++ name ++ ":latest")])
                ++ [.save (fullImageName name v2)]
        ∧ ∃ b, (GetFixtureImageTarPath env t' name w').2.fs (cachePath name v2)
            = some (.file 0o666 b)) := by
  have hs1 := fixtureVersion_no_slash hv1
  have hs2 := fixtureVersion_no_slash hv2
  have hrun := GetFixtureImageTarPath_run env t' name v2 w' hv2
  have hpne := cachePath_injective name v1 v2 hs1 hs2 hne
  refine ⟨fun h => hpne h.symm, fun p hp => ?_, ?_, fun habs hok => ?_⟩
  · have := (hrun.ok_post (by rw [hp]; rfl)).1
    rw [hp] at this
    injection this
  · exact hrun.frame _ (cachePath_not_above_cacheDir name v1 hs1)
      (cachePath_not_above_cachePath name v1 v2 hs1 hs2 hne)
  · exact hrun.absent_ok habs (ne_of_not_above (cachePath_not_above_cacheDir name v2 hs2)) hok

theorem GetFixtureImageTarPath_new_version_witness :
    fixtureVersion ⟨"TestA"⟩ "scratch-fixture" ⟨fsScratch, []⟩
      = .ok "67c4282c6928ae380489b6392127b14bb16d8c2f5ba5fa285a934f4f94387b5e"
    ∧ fixtureVersion ⟨"TestB"⟩ "scratch-fixture" worldEdited
      = .ok "a177ad730e5fa967835970f66bdbcd0eda4e7b919fc531720a4ac4839e445765"
    ∧ (GetFixtureImageTarPath envWorks ⟨"TestB"⟩ "scratch-fixture" worldEdited).1
      = .ok "test-fixtures/cache/anchore-fixture-scratch-fixture-a177ad730e5fa967835970f66bdbcd0eda4e7b919fc531720a4ac4839e445765.tar"
    ∧ cachePath "scratch-fixture"
          "a177ad730e5fa967835970f66bdbcd0eda4e7b919fc531720a4ac4839e445765"
        ≠ cachePath "scratch-fixture"
          "67c4282c6928ae380489b6392127b14bb16d8c2f5ba5fa285a934f4f94387b5e"
    ∧ (GetFixtureImageTarPath envWorks ⟨"TestB"⟩ "scratch-fixture" worldEdited).2.fs
          (cachePath "scratch-fixture"
            "67c4282c6928ae380489b6392127b14bb16d8c2f5ba5fa285a934f4f94387b5e")
        = some (.file 0o666 [1, 2, 3])
    ∧ (GetFixtureImageTarPath envWorks ⟨"TestB"⟩ "scratch-fixture" worldEdited).2.cmds
        = worldEdited.cmds
          ++ .inspect (fullImageName "scratch-fixture"
              "a177ad730e5fa967835970f66bdbcd0eda4e7b919fc531720a4ac4839e445765")
            :: (if (envWorks.docker worldEdited.cmds
                  (.inspect (fullImageName "scratch-fixture"
                    "a177ad730e5fa967835970f66bdbcd0eda4e7b919fc531720a4ac4839e445765"))).success
                  = true
                then []
                else [.build (contextPath "scratch-fixture")
                  (fullImageName "scratch-fixture"
                    "a177ad730e5fa967835970f66bdbcd0eda4e7b919fc531720a4ac4839e445765")
                  (imagePrefix ++ "-" ++ "scratch-fixture" ++ ":latest")])
            ++ [.save (fullImageName "scratch-fixture"
                "a177ad730e5fa967835970f66bdbcd0eda4e7b919fc531720a4ac4839e445765")] :=
  have h := GetFixtureImageTarPath_new_version envWorks ⟨"TestA"⟩ ⟨"TestB"⟩ "scratch-fixture"
    "67c4282c6928ae380489b6392127b14bb16d8c2f5ba5fa285a934f4f94387b5e"
    "a177ad730e5fa967835970f66bdbcd0eda4e7b919fc531720a4ac4839e445765"
    ⟨fsScratch, []⟩ worldEdited (by decide) (by decide) (by decide)
  ⟨by decide, by decide, by decide, h.1, h.2.2.1.trans rfl, (h.2.2.2 (by decide) (by decide)).1⟩

/-! ### C9 -/

namespace filepath

theorem mem_readDirNames {entries : List (String × Node)} {name : String} :
    name ∈ readDirNames entries ↔ name ∈ entries.map Prod.fst := by
  unfold readDirNames
  rw [List.mem_insertionSort, List.mem_dedup]

theorem readDirNames_sorted (entries : List (String × Node)) :
    (readDirNames entries).Pairwise (fun a b => a.data < b.data) := by
  have tot : IsTotal String (fun a b => a.data ≤ b.data) :=
    ⟨fun a b => le_total a.data b.data⟩
  have tr : IsTrans String (fun a b => a.data ≤ b.data) :=
    ⟨fun _ _ _ h1 h2 => le_trans h1 h2⟩
  have h1 : (readDirNames entries).Sorted (fun a b => a.data ≤ b.data) :=
    List.sorted_insertionSort _ _
  have h2 : (readDirNames entries).Nodup :=
    (List.perm_insertionSort _ _).nodup_iff.mpr (List.nodup_dedup _)
  have h3 := List.Pairwise.and h1 h2
  refine h3.imp ?_
  intro a b ⟨hle, hne⟩
  exact lt_of_le_of_ne hle (fun h => hne (String.ext h))

end filepath

/-! ### The walk of `dirHash` against the listing of regular files -/

theorem forNames_ok {σ : Type} (visit : String → σ → Except os.Error σ) (g : String → σ → σ)
    (names : List String) (h : ∀ n ∈ names, ∀ s, visit n s = .ok (g n s)) (s : σ) :
    filepath.forNames visit names s = .ok (names.foldl (fun acc n => g n acc) s) := by
  induction names generalizing s with
  | nil => rfl
  | cons n rest ih =>
    simp only [filepath.forNames, h n (List.mem_cons_self _ _), List.foldl_cons]
    exact ih (fun m hm => h m (List.mem_cons_of_mem _ hm)) _

theorem foldl_append_flatMap {α β : Type} (f : α → List β) (l : List α) (s : List β) :
    l.foldl (fun acc n => acc ++ f n) s = s ++ l.flatMap f := by
  induction l generalizing s with
  | nil => simp
  | cons a rest ih => simp [ih, List.flatMap_cons]

theorem stream_flatMap (F : String → List (List String × List UInt8)) (l : List String) :
    ((l.flatMap (fun name => (F name).map (fun f => (name :: f.1, f.2)))).map Prod.snd).flatten
      = l.flatMap (fun name => ((F name).map Prod.snd).flatten) := by
  induction l with
  | nil => rfl
  | cons a rest ih =>
    simp only [List.flatMap_cons, List.map_append, List.flatten_append, ih, List.map_map]
    rfl

mutual
theorem walk_dirHash : ∀ (n : Node) (p : String) (h : List UInt8),
    filepath.walk dirHashWalkFn p n h = .ok (h ++ n.stream)
  | .file m c, p, h => by
    simp [filepath.walk, dirHashWalkFn, Node.stream, Node.regularFiles, Node.IsRegular, Node.read]
  | .symlink tgt, p, h => by
    simp [filepath.walk, dirHashWalkFn, Node.stream, Node.regularFiles, Node.IsRegular]
  | .special m, p, h => by
    simp [filepath.walk, dirHashWalkFn, Node.stream, Node.regularFiles, Node.IsRegular]
  | .dir m entries, p, h => by
    have hc := walkChild_dirHash entries p
    rw [filepath.walk]
    simp only [dirHashWalkFn, Node.IsRegular, Bool.not_false, if_true]
    rw [forNames_ok _ (fun name s => s ++ ((childFiles entries name).map Prod.snd).flatten)]
    · rw [foldl_append_flatMap]
      rw [Node.stream, Node.regularFiles, stream_flatMap]
    · intro name hn s
      exact hc name s (filepath.mem_readDirNames.mp hn)
theorem walkChild_dirHash : ∀ (entries : List (String × Node)) (p name : String)
    (h : List UInt8), name ∈ entries.map Prod.fst →
    filepath.walkChild dirHashWalkFn p entries name h
      = .ok (h ++ ((childFiles entries name).map Prod.snd).flatten)
  | [], p, name, h, hm => by simp at hm
  | (n, child) :: rest, p, name, h, hm => by
    rw [filepath.walkChild, childFiles]
    by_cases hn : n = name
    · simp only [hn, if_true]
      exact walk_dirHash child _ h
    · simp only [hn, if_false]
      apply walkChild_dirHash rest p name h
      simp at hm
      rcases hm with hm | hm
      · exact absurd hm.symm hn
      · simpa using hm
end

/-- What `dirHash` returns when the root exists: the lowercase hex of SHA-256 of
the concatenated contents of the regular files, in walk order. -/
theorem dirHash_of_some (t : testing.T) (root : String) (w : World) (node : Node)
    (h : w.fs root = some node) :
    dirHash t root w = (fmt.hex (sha256.Sum256 node.stream), none) := by
  simp [dirHash, filepath.Walk, os.Stat_of_some h, walk_dirHash, sha256.New]

/-! ### The listing is strictly increasing in the order of the walk -/

mutual
theorem regularFiles_sorted : ∀ n : Node,
    n.regularFiles.Pairwise (fun f g => pathLt f.1 g.1)
  | .file m c => by simp [Node.regularFiles]
  | .symlink tgt => by simp [Node.regularFiles]
  | .special m => by simp [Node.regularFiles]
  | .dir m entries => by
    rw [Node.regularFiles, List.pairwise_flatMap]
    refine ⟨fun name _ => ?_, ?_⟩
    · rw [List.pairwise_map]
      exact (childFiles_sorted entries name).imp (fun h => List.Lex.cons h)
    · refine (filepath.readDirNames_sorted entries).imp ?_
      intro a b hab x hx y hy
      simp only [List.mem_map] at hx hy
      obtain ⟨x', _, rfl⟩ := hx
      obtain ⟨y', _, rfl⟩ := hy
      exact List.Lex.rel hab
theorem childFiles_sorted : ∀ (entries : List (String × Node)) (name : String),
    (childFiles entries name).Pairwise (fun f g => pathLt f.1 g.1)
  | [], name => by simp [childFiles]
  | (n, child) :: rest, name => by
    rw [childFiles]
    by_cases hn : n = name
    · simp only [hn, if_true]
      exact regularFiles_sorted child
    · simp only [hn, if_false]
      exact childFiles_sorted rest name
end

theorem pathLt_asymm {a b : List String} (h1 : pathLt a b) (h2 : pathLt b a) : False := by
  have : IsAsymm String (fun x y : String => x.data < y.data) := ⟨fun _ _ h h' => lt_asymm h h'⟩
  exact (List.Lex.isAsymm.aux _ _ _ h1 h2)

theorem regularFiles_ext (n1 n2 : Node)
    (h : ∀ f, f ∈ n1.regularFiles ↔ f ∈ n2.regularFiles) :
    n1.regularFiles = n2.regularFiles := by
  have s1 := regularFiles_sorted n1
  have s2 := regularFiles_sorted n2
  have irr : ∀ f : List String × List UInt8, ¬ pathLt f.1 f.1 := fun f hf => pathLt_asymm hf hf
  have key : ∀ a b : List String × List UInt8, pathLt a.1 b.1 → a ≠ b := by
    intro a b hab he
    rw [he] at hab
    exact irr b hab
  have nd1 : n1.regularFiles.Nodup := List.Pairwise.imp (key _ _) s1
  have nd2 : n2.regularFiles.Nodup := List.Pairwise.imp (key _ _) s2
  have hperm := (List.perm_ext_iff_of_nodup nd1 nd2).mpr h
  have : IsAntisymm (List String × List UInt8) (fun f g => pathLt f.1 g.1) :=
    ⟨fun _ _ h1 h2 => (pathLt_asymm h1 h2).elim⟩
  exact List.eq_of_perm_of_sorted hperm s1 s2

/-! ### The listing holds exactly the regular files of the tree -/

theorem childFiles_mem_key : ∀ (entries : List (String × Node)) (name : String)
    (f : List String × List UInt8), f ∈ childFiles entries name → name ∈ entries.map Prod.fst
  | [], name, f, h => by simp [childFiles] at h
  | (n, child) :: rest, name, f, h => by
    rw [childFiles] at h
    by_cases hn : n = name
    · simp [hn]
    · simp only [hn, if_false] at h
      have := childFiles_mem_key rest name f h
      simp only [List.map_cons, List.mem_cons]
      exact .inr this

mutual
theorem mem_regularFiles : ∀ (n : Node) (p : List String) (b : List UInt8),
    (p, b) ∈ n.regularFiles ↔ ∃ m, n.resolve p = some (.file m b)
  | .file m c, p, b => by
    cases p with
    | nil =>
      simp only [Node.regularFiles, Node.resolve, List.mem_singleton, Prod.mk.injEq, true_and,
        Option.some.injEq, Node.file.injEq]
      constructor
      · intro h; exact ⟨m, rfl, h.symm⟩
      · rintro ⟨_, _, h⟩; exact h.symm
    | cons a rest => simp [Node.regularFiles, Node.resolve]
  | .symlink tgt, p, b => by cases p <;> simp [Node.regularFiles, Node.resolve]
  | .special m, p, b => by cases p <;> simp [Node.regularFiles, Node.resolve]
  | .dir m entries, p, b => by
    have ih := mem_childFiles entries
    cases p with
    | nil => simp [Node.regularFiles, Node.resolve]
    | cons name rest =>
      rw [Node.resolve, ← ih name rest b, Node.regularFiles]
      simp only [List.mem_flatMap, List.mem_map, Prod.mk.injEq, List.cons.injEq]
      constructor
      · rintro ⟨a, _, f, hf, ⟨rfl, rfl⟩, rfl⟩
        exact hf
      · intro h
        exact ⟨name, filepath.mem_readDirNames.mpr (childFiles_mem_key _ _ _ h), (rest, b), h,
          ⟨rfl, rfl⟩, rfl⟩
theorem mem_childFiles : ∀ (entries : List (String × Node)) (name : String) (p : List String)
    (b : List UInt8),
    (p, b) ∈ childFiles entries name ↔ ∃ m, resolveIn entries name p = some (.file m b)
  | [], name, p, b => by simp [childFiles, resolveIn]
  | (n, child) :: rest, name, p, b => by
    rw [childFiles, resolveIn]
    by_cases hn : n = name
    · simp only [hn, if_true]
      exact mem_regularFiles child p b
    · simp only [hn, if_false]
      exact mem_childFiles rest name p b
end

namespace fmt

theorem hexDigit_mem : ∀ n, n < 16 → hexDigit n ∈ "0123456789abcdef".data := by decide

theorem hex_lowercase (b : List UInt8) : ∀ c ∈ (hex b).data, c ∈ "0123456789abcdef".data := by
  intro c hc
  unfold hex at hc
  simp only [List.mem_flatMap] at hc
  obtain ⟨x, _, hx⟩ := hc
  have h256 : x.toNat < 256 := x.val.isLt
  simp only [List.mem_cons, List.mem_singleton, List.not_mem_nil, or_false] at hx
  rcases hx with h | h
  · rw [h]; exact hexDigit_mem _ (by omega)
  · rw [h]; exact hexDigit_mem _ (by omega)

theorem hex_length (b : List UInt8) : (hex b).data.length = 2 * b.length := by
  unfold hex
  induction b with
  | nil => rfl
  | cons x rest ih =>
    simp only [List.flatMap_cons, List.length_append, List.length_cons, List.length_nil] at ih ⊢
    omega

end fmt

/-- C6. When the walk succeeds, `dirHash` returns the lowercase hexadecimal
encoding (two digits per byte) of SHA-256 applied to the concatenation of the
contents of the regular files in walk order; the listing `regularFiles` holds
exactly the regular files of the tree, in increasing path order; and two
contexts with the same regular files (same paths, same bytes) get the same hash,
whatever the modes, directories, symbolic links and special files in them. -/
theorem dirHash_spec (t : testing.T) :
    (∀ root w, (dirHash t root w).2 = none →
      ∃ node, w.fs root = some node
        ∧ (dirHash t root w).1
          = fmt.hex (sha256.Sum256 ((node.regularFiles.map Prod.snd).flatten)))
    ∧ (∀ b, (∀ c ∈ (fmt.hex b).data, c ∈ "0123456789abcdef".data)
        ∧ (fmt.hex b).data.length = 2 * b.length)
    ∧ (∀ (n : Node) p b, (p, b) ∈ n.regularFiles ↔ ∃ m, n.resolve p = some (.file m b))
    ∧ (∀ n : Node, n.regularFiles.Pairwise (fun f g => pathLt f.1 g.1))
    ∧ (∀ root1 w1 node1 root2 w2 node2,
        w1.fs root1 = some node1 → w2.fs root2 = some node2 →
        (∀ p b, (∃ m, node1.resolve p = some (.file m b))
          ↔ (∃ m, node2.resolve p = some (.file m b))) →
        dirHash t root1 w1 = dirHash t root2 w2) := by
  refine ⟨fun root w h => ?_, fun b => ⟨fmt.hex_lowercase b, fmt.hex_length b⟩,
    mem_regularFiles, regularFiles_sorted, ?_⟩
  · cases hn : w.fs root with
    | none =>
      obtain ⟨e, he⟩ := dirHash_of_none t root w hn
      rw [he] at h; cases h
    | some node => exact ⟨node, rfl, by rw [dirHash_of_some t root w node hn]; rfl⟩
  · intro root1 w1 node1 root2 w2 node2 h1 h2 hsame
    rw [dirHash_of_some t root1 w1 node1 h1, dirHash_of_some t root2 w2 node2 h2]
    have : node1.regularFiles = node2.regularFiles := by
      apply regularFiles_ext
      rintro ⟨p, b⟩
      rw [mem_regularFiles, mem_regularFiles]
      exact hsame p b
    simp [Node.stream, this]

theorem dirHash_spec_witness :
    contextA.regularFiles
      = [(["Dockerfile"], [70, 82, 79, 77, 32, 115, 99, 114, 97, 116, 99, 104]),
         (["sub", "a"], [1, 2])]
    ∧ contextB.regularFiles = contextA.regularFiles
    ∧ dirHash ⟨"TestA"⟩ "test-fixtures/a"
        ⟨⟨.dir 0o755 [("test-fixtures", .dir 0o755 [("a", contextA)])]⟩, []⟩
      = dirHash ⟨"TestA"⟩ "test-fixtures/b"
        ⟨⟨.dir 0o755 [("test-fixtures", .dir 0o755 [("b", contextB)])]⟩, []⟩ :=
  ⟨by decide, by decide,
    (dirHash_spec ⟨"TestA"⟩).2.2.2.2 "test-fixtures/a"
      ⟨⟨.dir 0o755 [("test-fixtures", .dir 0o755 [("a", contextA)])]⟩, []⟩ contextA
      "test-fixtures/b"
      ⟨⟨.dir 0o755 [("test-fixtures", .dir 0o755 [("b", contextB)])]⟩, []⟩ contextB rfl rfl
      (fun p b => by
        rw [← (dirHash_spec ⟨"TestA"⟩).2.2.1, ← (dirHash_spec ⟨"TestA"⟩).2.2.1]
        rw [show contextB.regularFiles = contextA.regularFiles from by decide])⟩

/-! ## One byte changed in a file of the context -/

namespace fmt

theorem hexDigit_inj : ∀ a, a < 16 → ∀ b, b < 16 → hexDigit a = hexDigit b → a = b := by decide

theorem hex_injective : ∀ b b' : List UInt8, hex b = hex b' → b = b'
  | [], [], _ => rfl
  | [], y :: ys, h => by
    have := congrArg String.data h
    simp [hex] at this
  | x :: xs, [], h => by
    have := congrArg String.data h
    simp [hex] at this
  | x :: xs, y :: ys, h => by
    have h1 := congrArg String.data h
    simp only [hex, List.flatMap_cons, List.cons_append, List.nil_append, List.cons.injEq] at h1
    obtain ⟨ha, hb, hrest⟩ := h1
    have hx : x.toNat < 256 := x.val.isLt
    have hy : y.toNat < 256 := y.val.isLt
    have e1 := hexDigit_inj _ (by omega) _ (by omega) ha
    have e2 := hexDigit_inj _ (by omega) _ (by omega) hb
    have exy : x = y := UInt8.ext_iff.mpr (by omega)
    have := hex_injective xs ys (String.ext hrest)
    rw [exy, this]

end fmt

theorem map_eq_self {α : Type} (f : α → α) : ∀ (l : List α), (∀ a ∈ l, f a = a) → l.map f = l
  | [], _ => rfl
  | a :: rest, h => by
    rw [List.map_cons, h a (List.mem_cons_self _ _),
      map_eq_self f rest (fun b hb => h b (List.mem_cons_of_mem _ hb))]

theorem regularFiles_dir_ne_nil (m : Nat) (entries : List (String × Node))
    (f : List String × List UInt8) (h : f ∈ (Node.dir m entries).regularFiles) : f.1 ≠ [] := by
  rw [Node.regularFiles] at h
  simp only [List.mem_flatMap, List.mem_map] at h
  obtain ⟨name, _, g, _, rfl⟩ := h
  simp

theorem readDirNames_setByteIn : ∀ (entries : List (String × Node)) (name : String)
    (rest : List String) (i : Nat) (x : UInt8),
    (setByteIn entries name rest i x).map Prod.fst = entries.map Prod.fst
  | [], _, _, _, _ => by simp [setByteIn]
  | (n, child) :: more, name, rest, i, x => by
    rw [setByteIn]
    by_cases hn : n = name
    · simp [hn]
    · simp [hn, readDirNames_setByteIn more name rest i x]

mutual
theorem regularFiles_setByte : ∀ (n : Node) (p : List String) (i : Nat) (x : UInt8),
    (n.setByte p i x).regularFiles = n.regularFiles.map (pokeFile p i x)
  | .file m c, [], i, x => by simp [Node.setByte, Node.regularFiles, pokeFile]
  | .file m c, a :: rest, i, x => by simp [Node.setByte, Node.regularFiles, pokeFile]
  | .symlink tgt, p, i, x => by simp [Node.setByte, Node.regularFiles]
  | .special m, p, i, x => by simp [Node.setByte, Node.regularFiles]
  | .dir m entries, [], i, x => by
    rw [Node.setByte]
    symm
    apply map_eq_self
    intro f hf
    simp [pokeFile, regularFiles_dir_ne_nil m entries f hf]
  | .dir m entries, name :: rest, i, x => by
    have ih := childFiles_setByteIn entries name rest i x
    rw [Node.setByte, Node.regularFiles, Node.regularFiles]
    have hn : filepath.readDirNames (setByteIn entries name rest i x)
        = filepath.readDirNames entries := by
      unfold filepath.readDirNames
      rw [readDirNames_setByteIn]
    rw [hn, List.map_flatMap]
    congr 1
    funext name'
    rw [ih name', List.map_map]
    by_cases h : name' = name
    · subst h
      simp only [if_true, List.map_map]
      congr 1
      funext f
      simp only [Function.comp, pokeFile, List.cons.injEq, true_and]
      split_ifs <;> rfl
    · simp only [h, if_false]
      symm
      calc List.map (pokeFile (name :: rest) i x ∘ fun f => (name' :: f.1, f.2))
            (childFiles entries name')
          = List.map (fun f => (name' :: f.1, f.2)) (childFiles entries name') := by
            congr 1
            funext f
            simp [Function.comp, pokeFile, h]
theorem childFiles_setByteIn : ∀ (entries : List (String × Node)) (name : String)
    (rest : List String) (i : Nat) (x : UInt8) (name' : String),
    childFiles (setByteIn entries name rest i x) name'
      = if name' = name then (childFiles entries name).map (pokeFile rest i x)
        else childFiles entries name'
  | [], name, rest, i, x, name' => by simp [setByteIn, childFiles]
  | (n, child) :: more, name, rest, i, x, name' => by
    rw [setByteIn]
    by_cases hn : n = name
    · subst hn
      simp only [if_true]
      by_cases h : name' = n
      · subst h
        simp [childFiles, regularFiles_setByte child rest i x]
      · have h' : ¬ n = name' := fun e => h e.symm
        simp [childFiles, h, h']
    · simp only [hn, if_false]
      rw [childFiles, childFiles_setByteIn more name rest i x name']
      by_cases h : name' = name
      · subst h
        simp [hn, childFiles]
      · simp only [h, if_false]
        rw [childFiles]
end

theorem flatten_poke_ne (p : List String) (c : List UInt8) (i : Nat) (x : UInt8)
    (hne : c.set i x ≠ c) : ∀ (l : List (List String × List UInt8)),
    l.Pairwise (fun f g => f.1 ≠ g.1) → (p, c) ∈ l →
    ((l.map (pokeFile p i x)).map Prod.snd).flatten ≠ (l.map Prod.snd).flatten
  | [], _, hm => by simp at hm
  | f :: rest, hs, hm => by
    rw [List.pairwise_cons] at hs
    obtain ⟨hf, hrest⟩ := hs
    by_cases hp : f.1 = p
    · have hnot : (p, c) ∉ rest := fun h => hf _ h hp
      have hfe : f = (p, c) := by
        rcases List.mem_cons.mp hm with h | h
        · exact h.symm
        · exact absurd h hnot
      subst hfe
      have hsame : rest.map (pokeFile p i x) = rest := by
        apply map_eq_self
        intro g hg
        have : g.1 ≠ p := fun e => hf g hg e.symm
        simp [pokeFile, this]
      simp only [List.map_cons, hsame, List.flatten_cons, pokeFile, if_true]
      intro h
      exact hne (List.append_cancel_right h)
    · have hm' : (p, c) ∈ rest := by
        rcases List.mem_cons.mp hm with h | h
        · exact absurd (by rw [← h]) hp
        · exact h
      have ih := flatten_poke_ne p c i x hne rest hrest hm'
      simp only [List.map_cons, List.flatten_cons, pokeFile, hp, if_false]
      intro h
      exact ih (List.append_cancel_left h)

theorem set_ne_self (content : List UInt8) (i : Nat) (x y : UInt8)
    (hy : content[i]? = some y) (hx : y ≠ x) : content.set i x ≠ content := by
  intro h
  have hi : i < content.length := by
    by_contra hlt
    rw [List.getElem?_eq_none (Nat.le_of_not_lt hlt)] at hy
    cases hy
  have h1 : (content.set i x)[i]? = some x := List.getElem?_set_self hi
  rw [h, hy] at h1
  injection h1 with h1
  exact hx h1

/-- Replacing one byte of a regular file of the tree by another value changes the
input of the hash: the rest of the listing is the same, the bytes of that file
differ. -/
theorem stream_setByte_ne (n : Node) (p : List String) (m : Nat) (content : List UInt8)
    (i : Nat) (x y : UInt8) (hr : n.resolve p = some (.file m content))
    (hy : content[i]? = some y) (hx : y ≠ x) :
    (n.setByte p i x).regularFiles = n.regularFiles.map (pokeFile p i x)
    ∧ (n.setByte p i x).stream ≠ n.stream := by
  refine ⟨regularFiles_setByte n p i x, ?_⟩
  unfold Node.stream
  rw [regularFiles_setByte]
  apply flatten_poke_ne p content i x (set_ne_self content i x y hy hx)
  · refine (regularFiles_sorted n).imp ?_
    intro a b hab he
    rw [he] at hab
    exact pathLt_asymm hab hab
  · exact (mem_regularFiles n p content).mpr ⟨m, hr⟩

/-- The hashes of two existing contexts differ exactly when SHA-256 gives
different digests for the concatenated contents of their regular files. -/
theorem dirHash_ne_iff (t : testing.T) (root root' : String) (w w' : World) (n n' : Node)
    (h : w.fs root = some n) (h' : w'.fs root' = some n') :
    dirHash t root w ≠ dirHash t root' w'
      ↔ sha256.Sum256 n.stream ≠ sha256.Sum256 n'.stream := by
  rw [dirHash_of_some t root w n h, dirHash_of_some t root' w' n' h']
  constructor
  · intro hne he
    exact hne (by rw [he])
  · intro hne he
    exact hne (fmt.hex_injective _ _ (congrArg Prod.fst he))

/-- When one byte of a regular file of an existing context is replaced by another
value, the input of the hash changes, and the value of `dirHash` changes exactly
when SHA-256 tells the two inputs apart. -/
theorem dirHash_setByte (t : testing.T) (root : String) (w : World) (n : Node)
    (p : List String) (m : Nat) (content : List UInt8) (i : Nat) (x y : UInt8)
    (h : w.fs root = some n) (hr : n.resolve p = some (.file m content))
    (hy : content[i]? = some y) (hx : y ≠ x) :
    (n.setByte p i x).stream ≠ n.stream
    ∧ (dirHash t root ⟨w.fs.set root (n.setByte p i x), w.cmds⟩ ≠ dirHash t root w
        ↔ sha256.Sum256 (n.setByte p i x).stream ≠ sha256.Sum256 n.stream) :=
  ⟨(stream_setByte_ne n p m content i x y hr hy hx).2,
    dirHash_ne_iff t root root _ w (n.setByte p i x) n (FS.set_same_of_some _ _ _ _ h) h⟩
